import Mathlib

/-!
# CogServer: the server loop and its control plane

A shallow embedding of `opencog/server/CogServer.cc`.

* The server object is the record `CogServer`; every member function is a
  function on the running system `Sys` (the server, the log of observable
  events and the wall clock).
* Code that lives outside the file (the virtual `Agent::run`,
  `Request::execute`, `Module::init`, the module entry points, the dynamic
  linker, the configuration) is collected in the record `Env`.
* Loops are bounded by `fuel`; a function returns `none` when the fuel is
  used up or when the C++ behaviour is undefined (a `%` by zero or of the
  least value by -1, an iterator invalidated while the table is walked).
* Machine integers are `Int` with explicit wrap-around (`wrapSigned`).
-/

namespace opencog

/-! ## Data model -/

/-- An agent object (`Agent*`): its address, `classinfo().id`, `frequency()`, and
the class ids on which its destructor calls `destroyAllAgents` recursively
(the source comment in `destroyAllAgents` allows such calls). -/
structure Agent where
  ptr : Nat
  classId : String
  frequency : Int
  dtorCalls : List String
  deriving DecidableEq, Repr

/-- A request object (`Request*`), identified by its address. -/
structure Request where
  ptr : Nat
  deriving DecidableEq, Repr

/-- The record `ModuleData` stored in the module map:
`{module, id, filename, loadFunction, unloadFunction, handle}`. -/
structure ModuleData where
  module : Nat
  id : String
  filename : String
  loadFunction : Nat
  unloadFunction : Nat
  handle : Nat
  deriving DecidableEq, Repr

/-- The map `ModuleMap` (`std::map<std::string, ModuleData>`), as the finite map it denotes. -/
abbrev ModuleMap := String → Option ModuleData

/-- The members of `CogServer` used by the file. `atomSpace` stands for the
state of the shared store, which agents and requests may change freely. -/
structure CogServer where
  cycleCount : Int
  agents : List Agent
  requestQueue : List Request
  modules : ModuleMap
  running : Bool
  atomSpace : Nat

/-- Observable events, in the order in which the server produces them. -/
inductive Event where
  | run (agent : Agent) (cycle : Int)
  | execute (request : Request)
  | deleteRequest (request : Request)
  | deleteAgent (agent : Agent) (table : List Agent)
  | dlopen (filename : String)
  | idFunction (filename : String)
  | loadFunction (filename : String)
  | init (module : Nat)
  | unloadFunction (module : Nat)
  | dlclose (handle : Nat)
  | cycleStart (time : Int)
  | usleep (micros : Int)
  deriving DecidableEq, Repr

/-- What `dlopen` and `dlsym` find in a library: the handle, the result of
calling the id function (`none` inside: it returned `NULL`), the addresses of
the load and unload functions (`none`: the symbol is missing), and the module
object that the load function constructs. -/
structure DynLibrary where
  handle : Nat
  idFunction : Option (Option String)
  loadFunction : Option Nat
  unloadFunction : Option Nat
  module : Nat

/-- Everything outside `CogServer.cc` that the code calls. -/
structure Env where
  /-- the width in bits of the type of `cycleCount` -/
  longBits : Nat
  /-- the effect of `agent->run(this)` on the server -/
  run : Agent → CogServer → CogServer
  /-- the wall-clock time of `agent->run(this)`, in microseconds -/
  runMicros : Agent → Nat
  /-- the effect of `request->execute()` on the server -/
  execute : Request → CogServer → CogServer
  /-- the wall-clock time of `request->execute()`, in microseconds -/
  executeMicros : Request → Nat
  /-- the value of `config().get_int("SERVER_CYCLE_DURATION")` -/
  SERVER_CYCLE_DURATION : Int
  /-- the time at which another thread calls `stop()`, if any -/
  stopAt : Option Int
  /-- the dynamic linker: `dlopen(filename)` followed by the `dlsym` lookups -/
  dlopen : String → Option DynLibrary
  /-- the effect of `module->init()` on the server -/
  init : Nat → CogServer → CogServer
  /-- the effect of `(*unloadFunction)(module)` on the server -/
  unload : Nat → Nat → CogServer → CogServer
  /-- the return code of `dlclose(handle)` -/
  dlclose : Nat → Int
  /-- the text `dlerror()` returns after a failed `dlclose(handle)` -/
  dlcloseError : Nat → Option String

/-- The running system: the server object, the log of events so far, and the
wall clock in microseconds. -/
structure Sys where
  server : CogServer
  log : List Event
  now : Int

/-- The constructor `CogServer::CogServer() : cycleCount(1)`: the containers
start empty; `running` is not initialised by the constructor. -/
def CogServer.new (running : Bool) : CogServer :=
  { cycleCount := 1, agents := [], requestQueue := [], modules := fun _ => none,
    running := running, atomSpace := 0 }

/-- A value of a signed `w`-bit integer type after wrap-around. -/
def wrapSigned (w : Nat) (x : Int) : Int :=
  (x + 2 ^ (w - 1)) % 2 ^ w - 2 ^ (w - 1)

/-! ## `std::partition` (libstdc++, bidirectional iterators)

`CogServer.cc` includes `<tr1/functional>`, a header of the GNU libstdc++, whose
`std::partition` on the iterators of a `std::vector` is
`std::__partition(first, last, pred, bidirectional_iterator_tag)`:

    while (true) {
      while (true)
        if (first == last) return first;
        else if (pred(*first)) ++first;
        else break;
      --last;
      while (true)
        if (first == last) return first;
        else if (!bool(pred(*last))) --last;
        else break;
      std::iter_swap(first, last);
      ++first;
    }

The C++ standard leaves the relative order of the elements unspecified. -/

/-- The first inner loop of `std::__partition`:
`while (true) if (first == last) return first; else if (pred(*first)) ++first; else break;`.
The caller tells the two exits apart by testing `first == last`. -/
def scanForward {α : Type} (pred : α → Bool) (v : List α) (last : Nat) : Nat → Nat → Option Nat
  | 0, _ => none
  | fuel + 1, first =>
    if first = last then some first
    else match v[first]? with
      | none => none
      | some x => if pred x then scanForward pred v last fuel (first + 1) else some first

/-- The second inner loop of `std::__partition`:
`while (true) if (first == last) return first; else if (!pred(*last)) --last; else break;`. -/
def scanBackward {α : Type} (pred : α → Bool) (v : List α) (first : Nat) : Nat → Nat → Option Nat
  | 0, _ => none
  | fuel + 1, last =>
    if first = last then some last
    else match v[last]? with
      | none => none
      | some x => if !pred x then scanBackward pred v first fuel (last - 1) else some last

/-- The call `std::iter_swap(first, last)` on the vector `v`. -/
def iter_swap {α : Type} (v : List α) (i j : Nat) : Option (List α) :=
  match v[i]?, v[j]? with
  | some x, some y => some ((v.set i y).set j x)
  | _, _ => none

/-- The outer loop of `std::__partition(first, last, pred, bidirectional_iterator_tag)`;
the result is the vector and the returned iterator (an index). -/
def partitionLoop {α : Type} (pred : α → Bool) :
    Nat → List α → Nat → Nat → Option (List α × Nat)
  | 0, _, _, _ => none
  | fuel + 1, v, first, last =>
    match scanForward pred v last (fuel + 1) first with
    | none => none
    | some first =>
      if first = last then some (v, first)
      else
        match scanBackward pred v first (fuel + 1) (last - 1) with
        | none => none
        | some last =>
          if first = last then some (v, first)
          else match iter_swap v first last with
            | none => none
            | some v => partitionLoop pred fuel v (first + 1) last

/-- The call `std::partition(v.begin(), v.end(), pred)`. -/
def std_partition {α : Type} (pred : α → Bool) (v : List α) : Option (List α × Nat) :=
  partitionLoop pred (v.length + 1) v 0 v.length

/-! ## Agents -/

/-- The functor `equal_to_id`: `a->classinfo().id != cid`. -/
def equal_to_id (a : Agent) (cid : String) : Bool :=
  a.classId != cid

/-- The member `CogServer::startAgent`: `agents.push_back(agent)`. -/
def startAgent (agent : Agent) (s : Sys) : Sys :=
  { s with server := { s.server with agents := s.server.agents ++ [agent] } }

/-- The member `CogServer::destroyAllAgents`. `fuel` bounds the depth of the recursion
through agent destructors. Deleting an agent logs `Event.deleteAgent` with the
table at that moment and then makes the destructor's recursive calls. -/
def destroyAllAgents : Nat → String → Sys → Option Sys
  | 0, _, _ => none
  | fuel + 1, id, s =>
    match std_partition (fun a => equal_to_id a id) s.server.agents with
    | none => none
    | some (v, last) =>
      let to_delete := v.drop last
      let s1 : Sys := { s with server := { s.server with agents := v.take last } }
      to_delete.foldlM
        (fun (st : Sys) (a : Agent) =>
          a.dtorCalls.foldlM (fun (st2 : Sys) (c : String) => destroyAllAgents fuel c st2)
            { st with log := st.log ++ [Event.deleteAgent a st.server.agents] })
        s1

/-- The call `safe_deleter<Agent>()(a)` made by `destroyAllAgents (fuel + 1)`: the body
of the fold in `destroyAllAgents`, named for the proofs. -/
def deleteAgent (fuel : Nat) (st : Sys) (a : Agent) : Option Sys :=
  a.dtorCalls.foldlM (fun (st2 : Sys) (c : String) => destroyAllAgents fuel c st2)
    { st with log := st.log ++ [Event.deleteAgent a st.server.agents] }

/-- The agents whose destructor ran, in the order of the log. -/
def deletedAgents : List Event → List Agent
  | [] => []
  | Event.deleteAgent a _ :: es => a :: deletedAgents es
  | _ :: es => deletedAgents es

/-- The relation between the system before and after a number of agent deletions:
`pool` holds the agents already taken out of the table and waiting for deletion.
Only the table and the log change, the table loses agents, every agent of the
pool or lost by the table is deleted exactly once, and each deletion sees a
table that holds no agent of the deleted agent's class. -/
def DeletesFrom (pool : List Agent) (st st2 : Sys) : Prop :=
  st2.server = { st.server with agents := st2.server.agents } ∧ st2.now = st.now ∧
  st2.server.agents.Subperm st.server.agents ∧
  ∃ evs, st2.log = st.log ++ evs ∧
    (deletedAgents evs ++ st2.server.agents).Perm (pool ++ st.server.agents) ∧
    ∀ e ∈ evs, ∃ a tbl, e = Event.deleteAgent a tbl ∧ tbl ⊆ st.server.agents ∧
      ∀ b ∈ tbl, b.classId ≠ a.classId

/-- A system with the given agent table, an empty queue and an empty log, for examples. -/
def sysOf (agents : List Agent) : Sys :=
  { server := { CogServer.new false with agents := agents }, log := [], now := 0 }

/-- An agent with a plain destructor, for examples. -/
def plainAgent (ptr : Nat) (classId : String) (frequency : Int) : Agent :=
  { ptr := ptr, classId := classId, frequency := frequency, dtorCalls := [] }

/-- An agent whose destructor calls `destroyAllAgents` on its own class id, for examples. -/
def reentrantAgent (ptr : Nat) (classId : String) : Agent :=
  { ptr := ptr, classId := classId, frequency := 1, dtorCalls := [classId] }

/-! ## Requests -/

/-- The member `CogServer::pushRequest`: `requestQueue.push(request)`. -/
def pushRequest (request : Request) (s : Sys) : Sys :=
  { s with server := { s.server with requestQueue := s.server.requestQueue ++ [request] } }

/-- The member `CogServer::popRequest`: the front of the queue, or `none` (the `NULL`
sentinel) when the queue is empty. -/
def popRequest (s : Sys) : Option Request × Sys :=
  match s.server.requestQueue with
  | [] => (none, s)
  | request :: rest => (some request, { s with server := { s.server with requestQueue := rest } })

/-- The member `CogServer::getRequestQueueSize`: `int size = requestQueue.size()`. -/
def getRequestQueueSize (s : Sys) : Int :=
  wrapSigned 32 s.server.requestQueue.length

/-- The member `CogServer::getCycleCount`. -/
def getCycleCount (s : Sys) : Int :=
  s.server.cycleCount

/-- The body of the loop of `processRequests`: `request->execute(); delete request;`. -/
def executeRequest (env : Env) (request : Request) (s : Sys) : Sys :=
  { server := env.execute request s.server,
    log := s.log ++ [Event.execute request, Event.deleteRequest request],
    now := s.now + env.executeMicros request }

/-- The member `CogServer::processRequests`:
`while ((request = popRequest()) != NULL) { request->execute(); delete request; }`. -/
def processRequests (env : Env) : Nat → Sys → Option Sys
  | 0, _ => none
  | fuel + 1, s =>
    match popRequest s with
    | (none, s1) => some s1
    | (some request, s1) => processRequests env fuel (executeRequest env request s1)

/-! ## The agent pass and the cycle counter -/

/-- The call `agent->run(this)`. An agent that changes the agent table invalidates
the iterator of `processAgents`: that is `none`. -/
def runAgent (env : Env) (agent : Agent) (s : Sys) : Option Sys :=
  let server := env.run agent s.server
  if server.agents = s.server.agents then
    some { server := server,
           log := s.log ++ [Event.run agent s.server.cycleCount],
           now := s.now + env.runMicros agent }
  else none

/-- The body of the loop of `processAgents`:
`if ((cycleCount % agent->frequency()) == 0) agent->run(this);`.
`%` is the truncating remainder of C++. The two operations that C++ leaves
undefined are `none`: a zero frequency, and the least value of the counter's
type with the frequency -1. -/
def processAgent (env : Env) (st : Sys) (agent : Agent) : Option Sys :=
  if agent.frequency = 0 then none
  else if st.server.cycleCount = -(2 ^ (env.longBits - 1)) ∧ agent.frequency = -1 then none
  else if Int.tmod st.server.cycleCount agent.frequency = 0 then runAgent env agent st
  else some st

/-- The member `CogServer::processAgents`: the loop over the agent table, in order. -/
def processAgents (env : Env) (s : Sys) : Option Sys :=
  s.server.agents.foldlM (processAgent env) s

/-- The statements `cycleCount++; if (cycleCount < 0) cycleCount = 0;`. -/
def incrementCycleCount (env : Env) (s : Sys) : Sys :=
  let cycleCount := wrapSigned env.longBits (s.server.cycleCount + 1)
  { s with server := { s.server with cycleCount := if cycleCount < 0 then 0 else cycleCount } }

/-- The loop of `unitTestServerLoop`, with the loop variable `i`:
`for (int i = 0; (nCycles == 0) || (i < nCycles); ++i)`. `fuel` bounds the
iterations, `fuel0` is handed to the inner loop of `processRequests`. -/
def unitTestLoop (env : Env) (fuel0 : Nat) (nCycles : Int) : Nat → Int → Sys → Option Sys
  | 0, _, _ => none
  | fuel + 1, i, s =>
    if nCycles = 0 ∨ i < nCycles then
      match processRequests env fuel0 s with
      | none => none
      | some s1 =>
        match processAgents env s1 with
        | none => none
        | some s2 => unitTestLoop env fuel0 nCycles fuel (i + 1) (incrementCycleCount env s2)
    else some s

/-- The member `CogServer::unitTestServerLoop`. -/
def unitTestServerLoop (env : Env) (fuel : Nat) (nCycles : Int) (s : Sys) : Option Sys :=
  unitTestLoop env fuel nCycles fuel 0 s

/-- The run events of a log: which agent ran at which cycle count. -/
def runsOf : List Event → List (Agent × Int)
  | [] => []
  | Event.run a c :: es => (a, c) :: runsOf es
  | _ :: es => runsOf es

/-- The requests executed by a log, in order. -/
def executedRequests : List Event → List Request
  | [] => []
  | Event.execute r :: es => r :: executedRequests es
  | _ :: es => executedRequests es

/-- The requests deleted by a log, in order. -/
def deletedRequests : List Event → List Request
  | [] => []
  | Event.deleteRequest r :: es => r :: deletedRequests es
  | _ :: es => deletedRequests es

/-! ## The paced server loop -/

/-- The record `struct timeval`. -/
structure Timeval where
  tv_sec : Int
  tv_usec : Int
  deriving DecidableEq, Repr

/-- The call `gettimeofday(&t, NULL)` on the model clock. -/
def gettimeofday (s : Sys) : Timeval :=
  { tv_sec := s.now / 1000000, tv_usec := s.now % 1000000 }

/-- The call `usleep(d)`: the model clock advances by exactly `d` microseconds. -/
def usleep (d : Int) (s : Sys) : Sys :=
  { s with log := s.log ++ [Event.usleep d], now := s.now + d }

/-- The member `CogServer::stop`: `running = false`. -/
def stop (s : Sys) : Sys :=
  { s with server := { s.server with running := false } }

/-- A `stop()` made by another thread at `env.stopAt` is visible to a read of
`running` made at or after that time, unless it was made before the loop was
entered at `loopStart`: the `running = true` of the loop overwrites it. -/
def observeStop (env : Env) (loopStart : Int) (s : Sys) : Sys :=
  match env.stopAt with
  | none => s
  | some t => if loopStart ≤ t ∧ t ≤ s.now then stop s else s

/-- The local `cycle_duration` of `serverLoop`: the `int` product
`config().get_int("SERVER_CYCLE_DURATION") * 1000`. -/
def cycle_duration (env : Env) : Int :=
  wrapSigned 32 (env.SERVER_CYCLE_DURATION * 1000)

/-- The end of the body of the loop of `serverLoop`, from `gettimeofday(&timer_end, NULL)`
to `timer_start = timer_end`; the result is the new `timer_start` and the system. -/
def paceCycle (env : Env) (timer_start : Timeval) (s4 : Sys) : Timeval × Sys :=
  let timer_end := gettimeofday s4
  let elapsed_time := ((timer_end.tv_sec - timer_start.tv_sec) * 1000000) +
                      (timer_end.tv_usec - timer_start.tv_usec)
  if (cycle_duration env - elapsed_time) > 0
  then (timer_end, usleep ((cycle_duration env - elapsed_time) % 2 ^ 32) s4)
  else (timer_end, s4)

/-- The statement `if (getRequestQueueSize() != 0) processRequests();` of `serverLoop`. -/
def processPending (env : Env) (fuel0 : Nat) (s1 : Sys) : Option Sys :=
  if getRequestQueueSize s1 ≠ 0 then processRequests env fuel0 s1 else some s1

/-- The body of the loop of `serverLoop`, from the test of the request queue to
`timer_start = timer_end`; the result is the new `timer_start` and the system. -/
def serverCycle (env : Env) (fuel0 : Nat) (timer_start : Timeval) (s1 : Sys) :
    Option (Timeval × Sys) :=
  (processPending env fuel0 s1).bind fun s2 =>
    (processAgents env s2).bind fun s3 =>
      some (paceCycle env timer_start (incrementCycleCount env s3))

/-- The loop `for (running = true; running;)` of `serverLoop`, from the test of
`running` on; `loopStart` is the time at which the loop was entered and
`timer_start` is the local of that name. Each cycle that starts logs
`Event.cycleStart` with the clock. -/
def serverCycles (env : Env) (fuel0 : Nat) (loopStart : Int) :
    Nat → Timeval → Sys → Option Sys
  | 0, _, _ => none
  | fuel + 1, timer_start, s =>
    let s0 := observeStop env loopStart s
    if s0.server.running then
      match serverCycle env fuel0 timer_start
          { s0 with log := s0.log ++ [Event.cycleStart s0.now] } with
      | none => none
      | some (timer_end, s5) => serverCycles env fuel0 loopStart fuel timer_end s5
    else some s0

/-- The member `CogServer::serverLoop`, from `gettimeofday(&timer_start, NULL)` on. -/
def serverLoop (env : Env) (fuel : Nat) (s : Sys) : Option Sys :=
  let timer_start := gettimeofday s
  serverCycles env fuel s.now fuel timer_start
    { s with server := { s.server with running := true } }

/-- The times at which the cycles of a log started. -/
def cycleStarts : List Event → List Int
  | [] => []
  | Event.cycleStart t :: es => t :: cycleStarts es
  | _ :: es => cycleStarts es

/-! ## Modules -/

/-- The assignment `modules[key] = mdata`. -/
def ModuleMap.insert (m : ModuleMap) (key : String) (mdata : ModuleData) : ModuleMap :=
  fun k => if k = key then some mdata else m k

/-- The call `modules.erase(key)`. -/
def ModuleMap.erase (m : ModuleMap) (key : String) : ModuleMap :=
  fun k => if k = key then none else m k

/-- The member `CogServer::loadModule`. -/
def loadModule (env : Env) (filename : String) (s : Sys) : Bool × Sys :=
  if (s.server.modules filename).isSome then (false, s)
  else
    let s1 : Sys := { s with log := s.log ++ [Event.dlopen filename] }
    match env.dlopen filename with
    | none => (false, s1)
    | some dynLibrary =>
      match dynLibrary.idFunction with
      | none => (false, s1)
      | some idResult =>
        let s2 : Sys := { s1 with log := s1.log ++ [Event.idFunction filename] }
        match idResult with
        | none => (false, s2)
        | some module_id =>
          match dynLibrary.loadFunction with
          | none => (false, s2)
          | some load_func =>
            match dynLibrary.unloadFunction with
            | none => (false, s2)
            | some unload_func =>
              let module := dynLibrary.module
              let mdata : ModuleData :=
                { module := module, id := module_id, filename := filename,
                  loadFunction := load_func, unloadFunction := unload_func,
                  handle := dynLibrary.handle }
              let modules := (s2.server.modules.insert module_id mdata).insert filename mdata
              (true, { s2 with
                        server := env.init module { s2.server with modules := modules },
                        log := s2.log ++ [Event.loadFunction filename, Event.init module] })

/-- The member `CogServer::unloadModule`. -/
def unloadModule (env : Env) (moduleId : String) (s : Sys) : Bool × Sys :=
  match s.server.modules moduleId with
  | none => (false, s)
  | some mdata =>
    let filename := mdata.filename
    let id := mdata.id
    let handle := mdata.handle
    let server := env.unload mdata.unloadFunction mdata.module s.server
    let s1 : Sys :=
      { s with
        server := { server with modules := (server.modules.erase filename).erase id },
        log := s.log ++ [Event.unloadFunction mdata.module, Event.dlclose handle] }
    if env.dlclose handle ≠ 0 ∧ (env.dlcloseError handle).isSome then (false, s1)
    else (true, s1)

/-- The member `CogServer::getModuleData`, with `none` for the null record. -/
def getModuleData (moduleId : String) (s : Sys) : Option ModuleData :=
  s.server.modules moduleId

/-! ## Conditions on the environment -/

/-- Agents and requests leave the server's own tables alone: `run` and `execute`
change neither the agent table, nor the request queue, nor the cycle counter
(they may change the store and the `running` flag). -/
structure Env.Passive (env : Env) : Prop where
  run_agents : ∀ a srv, (env.run a srv).agents = srv.agents
  run_queue : ∀ a srv, (env.run a srv).requestQueue = srv.requestQueue
  run_cycle : ∀ a srv, (env.run a srv).cycleCount = srv.cycleCount
  execute_agents : ∀ r srv, (env.execute r srv).agents = srv.agents
  execute_queue : ∀ r srv, (env.execute r srv).requestQueue = srv.requestQueue
  execute_cycle : ∀ r srv, (env.execute r srv).cycleCount = srv.cycleCount

/-- The entry points of modules leave the module map alone. -/
structure Env.ModulesUntouched (env : Env) : Prop where
  init_modules : ∀ m srv, (env.init m srv).modules = srv.modules
  unload_modules : ∀ f m srv, (env.unload f m srv).modules = srv.modules

/-- An environment for examples: agents and requests only touch the store, every `run`
takes 10 ms, every library exports a module called after its file, `dlclose`
succeeds, and another thread calls `stop()` after one second. -/
def Env.simple (bits : Nat) (millis : Int) : Env :=
  { longBits := bits,
    run := fun a srv => { srv with atomSpace := srv.atomSpace + a.ptr },
    runMicros := fun _ => 10000,
    execute := fun r srv => { srv with atomSpace := srv.atomSpace + r.ptr },
    executeMicros := fun _ => 0,
    SERVER_CYCLE_DURATION := millis,
    stopAt := some 1000000,
    dlopen := fun f =>
      some { handle := f.length, idFunction := some (some ("opencog::" ++ f)),
             loadFunction := some 1, unloadFunction := some 2, module := f.length },
    init := fun _ srv => srv,
    unload := fun _ _ srv => srv,
    dlclose := fun _ => 0,
    dlcloseError := fun _ => none }

/-- An environment like `Env.simple` in which every library reports the module id `id`
and, when `hasUnload` is false, lacks the unload symbol, for examples. -/
def Env.fixedId (id : String) (hasUnload : Bool) : Env :=
  { Env.simple 64 100 with
    dlopen := fun f =>
      some { handle := f.length, idFunction := some (some id),
             loadFunction := some 1, unloadFunction := if hasUnload then some 2 else none,
             module := f.length } }

/-- A new server whose module map holds the descriptor `d` under its module id and its
filename, as `loadModule` leaves it, for examples. -/
def sysWithModule (d : ModuleData) : Sys :=
  { server := { CogServer.new false with
      modules := (ModuleMap.insert (fun _ => none) d.id d).insert d.filename d },
    log := [], now := 0 }

theorem scanForward_spec {α : Type} (pred : α → Bool) (v : List α) (last : Nat)
    (hl : last ≤ v.length) :
    ∀ fuel first, first ≤ last → last - first < fuel →
      ∃ r, scanForward pred v last fuel first = some r ∧ first ≤ r ∧ r ≤ last ∧
        (∀ i, first ≤ i → i < r → ∀ x, v[i]? = some x → pred x = true) ∧
        (r < last → ∀ x, v[r]? = some x → pred x = false) := by
  intro fuel
  induction fuel with
  | zero => intro first _ h; omega
  | succ fuel ih =>
    intro first hfl hfuel
    unfold scanForward
    by_cases h : first = last
    · subst h
      refine ⟨first, by simp, le_refl _, le_refl _, ?_, ?_⟩
      · intro i h1 h2; omega
      · intro h1; omega
    · have hlt : first < v.length := by omega
      simp only [h, if_false, List.getElem?_eq_getElem hlt]
      by_cases hp : pred v[first] = true
      · simp only [hp, if_true]
        obtain ⟨r, hr, h1, h2, h3, h4⟩ := ih (first + 1) (by omega) (by omega)
        refine ⟨r, hr, by omega, h2, ?_, h4⟩
        intro i hi1 hi2 x hx
        by_cases hi : i = first
        · subst hi
          rw [List.getElem?_eq_getElem hlt] at hx
          cases hx; exact hp
        · exact h3 i (by omega) hi2 x hx
      · simp only [hp]
        refine ⟨first, by simp, le_refl _, hfl, ?_, ?_⟩
        · intro i h1 h2; omega
        · intro _ x hx
          rw [List.getElem?_eq_getElem hlt] at hx
          cases hx; simpa using hp

theorem scanBackward_spec {α : Type} (pred : α → Bool) (v : List α) (first : Nat) :
    ∀ fuel last, first ≤ last → last < v.length → last - first < fuel →
      ∃ r, scanBackward pred v first fuel last = some r ∧ first ≤ r ∧ r ≤ last ∧
        (∀ i, r < i → i ≤ last → ∀ x, v[i]? = some x → pred x = false) ∧
        (first < r → ∀ x, v[r]? = some x → pred x = true) := by
  intro fuel
  induction fuel with
  | zero => intro last _ _ h; omega
  | succ fuel ih =>
    intro last hfl hlen hfuel
    unfold scanBackward
    by_cases h : first = last
    · subst h
      refine ⟨first, by simp, le_refl _, le_refl _, ?_, ?_⟩
      · intro i h1 h2; omega
      · intro h1; omega
    · simp only [h, if_false, List.getElem?_eq_getElem hlen]
      by_cases hp : pred v[last] = true
      · simp only [hp, Bool.not_true]
        refine ⟨last, by simp, hfl, le_refl _, ?_, ?_⟩
        · intro i h1 h2; omega
        · intro _ x hx
          rw [List.getElem?_eq_getElem hlen] at hx
          cases hx; exact hp
      · have hp2 : pred v[last] = false := by simpa using hp
        simp only [hp2, Bool.not_false, if_true]
        obtain ⟨r, hr, h1, h2, h3, h4⟩ := ih (last - 1) (by omega) (by omega) (by omega)
        refine ⟨r, hr, h1, by omega, ?_, h4⟩
        intro i hi1 hi2 x hx
        by_cases hi : i = last
        · subst hi
          rw [List.getElem?_eq_getElem hlen] at hx
          cases hx; exact hp2
        · exact h3 i hi1 (by omega) x hx

theorem iter_swap_eq {α : Type} (v : List α) (i j : Nat) (hi : i < v.length) (hj : j < v.length) :
    iter_swap v i j = some ((v.set i v[j]).set j v[i]) := by
  unfold iter_swap
  rw [List.getElem?_eq_getElem hi, List.getElem?_eq_getElem hj]

theorem swap_perm {α : Type} [DecidableEq α] (v : List α) (i j : Nat)
    (hi : i < v.length) (hj : j < v.length) :
    ((v.set i v[j]).set j v[i]).Perm v := by
  rw [List.perm_iff_count]
  intro a
  have hj2 : j < (v.set i v[j]).length := by simpa using hj
  rw [List.count_set _ _ _ _ hj2, List.count_set _ _ _ _ hi]
  have e : (v.set i v[j])[j] = v[j] := by
    rw [List.getElem_set]
    split
    · rfl
    · rfl
  rw [e]
  have h1 := List.boole_getElem_le_count a v i hi
  have h2 := List.boole_getElem_le_count a v j hj
  by_cases c1 : (v[i] == a) = true <;> by_cases c2 : (v[j] == a) = true <;> simp only [c1, c2, if_true, if_false] at h1 h2 ⊢ <;> omega

theorem swap_getElem? {α : Type} (v : List α) (i j k : Nat)
    (hi : i < v.length) (hj : j < v.length) :
    ((v.set i v[j]).set j v[i])[k]? =
      if k = j then some v[i] else if k = i then some v[j] else v[k]? := by
  rw [List.getElem?_set]
  by_cases h1 : j = k
  · subst h1
    simp [hj]
  · have h1b : ¬ k = j := fun h => h1 h.symm
    simp only [h1, h1b, if_false]
    rw [List.getElem?_set]
    by_cases h2 : i = k
    · subst h2
      simp [hi]
    · have h2b : ¬ k = i := fun h => h2 h.symm
      simp [h2, h2b]

theorem partitionLoop_spec {α : Type} [DecidableEq α] (pred : α → Bool) :
    ∀ fuel (v : List α) first last, first ≤ last → last ≤ v.length → last - first < fuel →
      (∀ i, i < first → ∀ x, v[i]? = some x → pred x = true) →
      (∀ i, last ≤ i → ∀ x, v[i]? = some x → pred x = false) →
      ∃ w r, partitionLoop pred fuel v first last = some (w, r) ∧ w.Perm v ∧ r ≤ w.length ∧
        (∀ i, i < r → ∀ x, w[i]? = some x → pred x = true) ∧
        (∀ i, r ≤ i → ∀ x, w[i]? = some x → pred x = false) := by
  intro fuel
  induction fuel with
  | zero => intro v first last _ _ h; omega
  | succ fuel ih =>
    intro v first last hfl hlen hfuel hlo hhi
    unfold partitionLoop
    obtain ⟨r1, e1, a1, a2, a3, a4⟩ :=
      scanForward_spec pred v last hlen (fuel + 1) first hfl hfuel
    simp only [e1]
    by_cases c1 : r1 = last
    · simp only [c1, if_true]
      refine ⟨v, last, rfl, List.Perm.refl _, hlen, ?_, hhi⟩
      intro i hi x hx
      by_cases hi2 : i < first
      · exact hlo i hi2 x hx
      · exact a3 i (by omega) (by omega) x hx
    · simp only [c1, if_false]
      obtain ⟨r2, e2, b1, b2, b3, b4⟩ :=
        scanBackward_spec pred v r1 (fuel + 1) (last - 1) (by omega) (by omega) (by omega)
      simp only [e2]
      have lowOK : ∀ i, i < r1 → ∀ x, v[i]? = some x → pred x = true := by
        intro i hi x hx
        by_cases hi2 : i < first
        · exact hlo i hi2 x hx
        · exact a3 i (by omega) hi x hx
      have highOK : ∀ i, r2 < i → ∀ x, v[i]? = some x → pred x = false := by
        intro i hi x hx
        by_cases hi2 : last ≤ i
        · exact hhi i hi2 x hx
        · exact b3 i hi (by omega) x hx
      by_cases c2 : r1 = r2
      · simp only [c2, if_true]
        refine ⟨v, r2, rfl, List.Perm.refl _, by omega, ?_, ?_⟩
        · intro i hi x hx
          exact lowOK i (by omega) x hx
        · intro i hi x hx
          by_cases hi2 : i = r2
          · subst hi2
            exact a4 (by omega) x (by rw [c2]; exact hx)
          · exact highOK i (by omega) x hx
      · simp only [c2, if_false]
        have h1 : r1 < v.length := by omega
        have h2 : r2 < v.length := by omega
        rw [iter_swap_eq v r1 r2 h1 h2]
        simp only
        have hlen2 : ((v.set r1 v[r2]).set r2 v[r1]).length = v.length := by simp
        obtain ⟨w, r, e3, p1, p2, p3, p4⟩ :=
          ih ((v.set r1 v[r2]).set r2 v[r1]) (r1 + 1) r2 (by omega) (by omega) (by omega)
            (by
              intro i hi x hx
              rw [swap_getElem? v r1 r2 i h1 h2] at hx
              by_cases k1 : i = r2
              · omega
              · by_cases k2 : i = r1
                · subst k2
                  simp only [k1, if_true, if_false] at hx
                  cases hx
                  exact b4 (by omega) _ (List.getElem?_eq_getElem h2)
                · simp only [k1, k2, if_false] at hx
                  exact lowOK i (by omega) x hx)
            (by
              intro i hi x hx
              rw [swap_getElem? v r1 r2 i h1 h2] at hx
              by_cases k1 : i = r2
              · subst k1
                simp only [if_true] at hx
                cases hx
                exact a4 (by omega) _ (List.getElem?_eq_getElem h1)
              · have k2 : ¬ i = r1 := by omega
                simp only [k1, k2, if_false] at hx
                exact highOK i (by omega) x hx)
        exact ⟨w, r, e3, p1.trans (swap_perm v r1 r2 h1 h2), p2, p3, p4⟩

/-- A range that is already partitioned is left as it is. -/
theorem partitionLoop_partitioned {α : Type} (pred : α → Bool) (v : List α)
    (fuel first last k : Nat) (hfk : first ≤ k) (hkl : k ≤ last) (hlen : last ≤ v.length)
    (hfuel : last - first < fuel)
    (hlo : ∀ i, first ≤ i → i < k → ∀ x, v[i]? = some x → pred x = true)
    (hhi : ∀ i, k ≤ i → i < last → ∀ x, v[i]? = some x → pred x = false) :
    partitionLoop pred fuel v first last = some (v, k) := by
  cases fuel with
  | zero => omega
  | succ fuel =>
    unfold partitionLoop
    obtain ⟨r1, e1, a1, a2, a3, a4⟩ :=
      scanForward_spec pred v last hlen (fuel + 1) first (by omega) hfuel
    have hr1 : r1 = k := by
      rcases Nat.lt_trichotomy r1 k with h | h | h
      · have hx := List.getElem?_eq_getElem (show r1 < v.length by omega)
        have t := hlo r1 a1 h _ hx
        have f := a4 (by omega) _ hx
        rw [t] at f; cases f
      · exact h
      · have hx := List.getElem?_eq_getElem (show k < v.length by omega)
        have t := a3 k hfk h _ hx
        have f := hhi k (le_refl _) (by omega) _ hx
        rw [t] at f; cases f
    subst hr1
    simp only [e1]
    by_cases c1 : r1 = last
    · simp [c1]
    · simp only [c1, if_false]
      obtain ⟨r2, e2, b1, b2, b3, b4⟩ :=
        scanBackward_spec pred v r1 (fuel + 1) (last - 1) (by omega) (by omega) (by omega)
      have hr2 : r2 = r1 := by
        by_contra hne
        have hx := List.getElem?_eq_getElem (show r2 < v.length by omega)
        have t := b4 (by omega) _ hx
        have f := hhi r2 b1 (by omega) _ hx
        rw [t] at f; cases f
      subst hr2
      simp [e2]

/-- The contract of `std::partition`: it returns, the vector is permuted, and the
returned iterator splits it into the elements that satisfy `pred` and those
that do not. -/
theorem std_partition_spec {α : Type} [DecidableEq α] (pred : α → Bool) (v : List α) :
    ∃ w r, std_partition pred v = some (w, r) ∧ w.Perm v ∧
      (∀ x ∈ w.take r, pred x = true) ∧ (∀ x ∈ w.drop r, pred x = false) ∧
      (w.take r).Perm (v.filter pred) ∧ (w.drop r).Perm (v.filter (fun x => !pred x)) := by
  obtain ⟨w, r, e, p, hr, lo, hi⟩ :=
    partitionLoop_spec pred (v.length + 1) v 0 v.length (Nat.zero_le _) (le_refl _) (by omega)
      (by intro i hi; omega)
      (by
        intro i hi x hx
        rw [List.getElem?_eq_none hi] at hx
        cases hx)
  have lo2 : ∀ x ∈ w.take r, pred x = true := by
    intro x hx
    obtain ⟨i, hi, rfl⟩ := List.getElem_of_mem hx
    rw [List.length_take] at hi
    have := lo i (by omega) (w.take r)[i] (by
      rw [← List.getElem?_eq_getElem, List.getElem?_take_of_lt (by omega)])
    exact this
  have hi2 : ∀ x ∈ w.drop r, pred x = false := by
    intro x hx
    obtain ⟨i, hi3, rfl⟩ := List.getElem_of_mem hx
    have := hi (r + i) (by omega) (w.drop r)[i] (by
      rw [← List.getElem?_eq_getElem, List.getElem?_drop])
    exact this
  have f1 : (w.take r).filter pred = w.take r := List.filter_eq_self.mpr lo2
  have f2 : (w.drop r).filter pred = [] := by
    rw [List.filter_eq_nil_iff]
    intro x hx
    simp [hi2 x hx]
  have g1 : (w.take r).filter (fun x => !pred x) = [] := by
    rw [List.filter_eq_nil_iff]
    intro x hx
    simp [lo2 x hx]
  have g2 : (w.drop r).filter (fun x => !pred x) = w.drop r := by
    apply List.filter_eq_self.mpr
    intro x hx
    simp [hi2 x hx]
  refine ⟨w, r, e, p, lo2, hi2, ?_, ?_⟩
  · have := p.filter pred
    rw [← List.take_append_drop r w, List.filter_append, f1, f2, List.append_nil] at this
    exact this
  · have := p.filter (fun x => !pred x)
    rw [← List.take_append_drop r w, List.filter_append, g1, g2, List.nil_append] at this
    exact this

/-- On a vector that is already partitioned `std::partition` moves nothing. -/
theorem std_partition_partitioned {α : Type} (pred : α → Bool) (keep gone : List α)
    (hk : ∀ x ∈ keep, pred x = true) (hg : ∀ x ∈ gone, pred x = false) :
    std_partition pred (keep ++ gone) = some (keep ++ gone, keep.length) := by
  unfold std_partition
  apply partitionLoop_partitioned pred (keep ++ gone) _ 0 _ keep.length (Nat.zero_le _)
    (by simp) (le_refl _) (by omega)
  · intro i _ hi x hx
    rw [List.getElem?_append_left hi] at hx
    exact hk x (List.getElem?_mem hx)
  · intro i hi _ x hx
    rw [List.getElem?_append_right hi] at hx
    exact hg x (List.getElem?_mem hx)

theorem deletedAgents_append (xs ys : List Event) :
    deletedAgents (xs ++ ys) = deletedAgents xs ++ deletedAgents ys := by
  induction xs with
  | nil => rfl
  | cons e es ih => cases e <;> simp [deletedAgents, ih]

theorem DeletesFrom.refl (st : Sys) : DeletesFrom [] st st := by
  refine ⟨rfl, rfl, List.Subperm.refl _, [], by simp, by simp [deletedAgents], ?_⟩
  intro e he
  cases he

theorem DeletesFrom.trans {p1 p2 : List Agent} {a b c : Sys}
    (h1 : DeletesFrom p1 a b) (h2 : DeletesFrom p2 b c) : DeletesFrom (p1 ++ p2) a c := by
  obtain ⟨f1, n1, s1, evs1, l1, q1, t1⟩ := h1
  obtain ⟨f2, n2, s2, evs2, l2, q2, t2⟩ := h2
  refine ⟨?_, by rw [n2, n1], s2.trans s1, evs1 ++ evs2, ?_, ?_, ?_⟩
  · rw [f2, f1]
  · rw [l2, l1, List.append_assoc]
  · rw [deletedAgents_append]
    calc deletedAgents evs1 ++ deletedAgents evs2 ++ c.server.agents
        = deletedAgents evs1 ++ (deletedAgents evs2 ++ c.server.agents) := by
          rw [List.append_assoc]
      _ |>.Perm (deletedAgents evs1 ++ (p2 ++ b.server.agents)) := q2.append_left _
      _ |>.Perm (p2 ++ (deletedAgents evs1 ++ b.server.agents)) := by
          rw [← List.append_assoc, ← List.append_assoc]
          exact List.Perm.append_right _ List.perm_append_comm
      _ |>.Perm (p2 ++ (p1 ++ a.server.agents)) := q1.append_left _
      _ |>.Perm (p1 ++ p2 ++ a.server.agents) := by
          rw [← List.append_assoc]
          exact List.Perm.append_right _ List.perm_append_comm
  · intro e he
    rcases List.mem_append.mp he with h | h
    · exact t1 e h
    · obtain ⟨x, tbl, e1, e2, e3⟩ := t2 e h
      exact ⟨x, tbl, e1, fun y hy => s1.subset (e2 hy), e3⟩

theorem destroyAllAgents_succ (fuel : Nat) (id : String) (s : Sys) :
    destroyAllAgents (fuel + 1) id s =
      match std_partition (fun a => equal_to_id a id) s.server.agents with
      | none => none
      | some (v, last) =>
        (v.drop last).foldlM (deleteAgent fuel)
          { s with server := { s.server with agents := v.take last } } := by
  rfl

theorem equal_to_id_true (a : Agent) (id : String) : equal_to_id a id = true ↔ a.classId ≠ id := by
  simp [equal_to_id]

theorem equal_to_id_false (a : Agent) (id : String) : equal_to_id a id = false ↔ a.classId = id := by
  simp [equal_to_id]

/-- The fold over the destructor's recursive calls, given the behaviour of the calls. -/
theorem dtorCalls_fold (fuel : Nat)
    (ih : ∀ id s, s.server.agents.length < fuel →
      ∃ s2, destroyAllAgents fuel id s = some s2 ∧ DeletesFrom [] s s2) :
    ∀ (calls : List String) (st : Sys), st.server.agents.length < fuel →
      ∃ s2, calls.foldlM (fun (st2 : Sys) (c : String) => destroyAllAgents fuel c st2) st = some s2 ∧
        DeletesFrom [] st s2 := by
  intro calls
  induction calls with
  | nil =>
    intro st _
    exact ⟨st, rfl, DeletesFrom.refl st⟩
  | cons c cs ihc =>
    intro st hlen
    obtain ⟨s1, e1, d1⟩ := ih c st hlen
    obtain ⟨s2, e2, d2⟩ := ihc s1 (lt_of_le_of_lt d1.2.2.1.length_le hlen)
    refine ⟨s2, ?_, by simpa using d1.trans d2⟩
    simp only [List.foldlM_cons, e1, Option.bind_eq_bind, Option.some_bind]
    exact e2

/-- Deleting one agent that is no longer in the table. -/
theorem deleteAgent_spec (fuel : Nat)
    (ih : ∀ id s, s.server.agents.length < fuel →
      ∃ s2, destroyAllAgents fuel id s = some s2 ∧ DeletesFrom [] s s2)
    (a : Agent) (st : Sys) (hlen : st.server.agents.length < fuel)
    (hcls : ∀ b ∈ st.server.agents, b.classId ≠ a.classId) :
    ∃ s2, deleteAgent fuel st a = some s2 ∧ DeletesFrom [a] st s2 := by
  obtain ⟨s2, e, f, n, sp, evs, l, q, t⟩ :=
    dtorCalls_fold fuel ih a.dtorCalls
      { st with log := st.log ++ [Event.deleteAgent a st.server.agents] } hlen
  refine ⟨s2, e, f, n, sp, Event.deleteAgent a st.server.agents :: evs, ?_, ?_, ?_⟩
  · rw [l]; simp
  · simp only [deletedAgents, List.cons_append, List.nil_append]
    simpa using q.cons a
  · intro e he
    rcases List.mem_cons.mp he with h | h
    · exact ⟨a, st.server.agents, h, fun y hy => hy, hcls⟩
    · exact t e h

/-- The fold of `destroyAllAgents` over the agents taken out of the table. -/
theorem deleteAgents_fold (fuel : Nat)
    (ih : ∀ id s, s.server.agents.length < fuel →
      ∃ s2, destroyAllAgents fuel id s = some s2 ∧ DeletesFrom [] s s2) :
    ∀ (del : List Agent) (st : Sys), (del ≠ [] → st.server.agents.length < fuel) →
      (∀ a ∈ del, ∀ b ∈ st.server.agents, b.classId ≠ a.classId) →
      ∃ s2, del.foldlM (deleteAgent fuel) st = some s2 ∧ DeletesFrom del st s2 := by
  intro del
  induction del with
  | nil =>
    intro st _ _
    exact ⟨st, rfl, DeletesFrom.refl st⟩
  | cons a del ihd =>
    intro st hlen hcls
    have hl := hlen (by simp)
    obtain ⟨s1, e1, d1⟩ :=
      deleteAgent_spec fuel ih a st hl (hcls a (List.mem_cons_self _ _))
    obtain ⟨s2, e2, d2⟩ := ihd s1 (fun _ => lt_of_le_of_lt d1.2.2.1.length_le hl)
      (fun x hx b hb => hcls x (List.mem_cons_of_mem _ hx) b (d1.2.2.1.subset hb))
    refine ⟨s2, ?_, by simpa using d1.trans d2⟩
    simp only [List.foldlM_cons, e1, Option.bind_eq_bind, Option.some_bind]
    exact e2

/-- The shape of every call of `destroyAllAgents` with enough fuel: `std::partition`
returns `(v, last)`, the call returns, and the deletions start from the table
`v.take last` with the pool `v.drop last`. -/
theorem destroyAllAgents_shape :
    ∀ (fuel : Nat) (id : String) (s : Sys), s.server.agents.length < fuel →
      ∃ v last s2, std_partition (fun a => equal_to_id a id) s.server.agents = some (v, last) ∧
        v.Perm s.server.agents ∧
        (∀ x ∈ v.take last, x.classId ≠ id) ∧ (∀ x ∈ v.drop last, x.classId = id) ∧
        (v.take last).Perm (s.server.agents.filter (fun a => equal_to_id a id)) ∧
        (v.drop last).Perm (s.server.agents.filter (fun a => !equal_to_id a id)) ∧
        destroyAllAgents fuel id s = some s2 ∧
        DeletesFrom (v.drop last) { s with server := { s.server with agents := v.take last } } s2 ∧
        DeletesFrom [] s s2 := by
  intro fuel
  induction fuel with
  | zero => intro id s h; omega
  | succ fuel ih =>
    intro id s hlen
    obtain ⟨v, last, e, p, lo, hi, pk, pg⟩ :=
      std_partition_spec (fun a => equal_to_id a id) s.server.agents
    have lo2 : ∀ x ∈ v.take last, x.classId ≠ id :=
      fun x hx => (equal_to_id_true x id).mp (lo x hx)
    have hi2 : ∀ x ∈ v.drop last, x.classId = id :=
      fun x hx => (equal_to_id_false x id).mp (hi x hx)
    have ih2 : ∀ id s, s.server.agents.length < fuel →
        ∃ s2, destroyAllAgents fuel id s = some s2 ∧ DeletesFrom [] s s2 := by
      intro id2 st h
      obtain ⟨_, _, s2, _, _, _, _, _, _, e2, _, d2⟩ := ih id2 st h
      exact ⟨s2, e2, d2⟩
    have hsplit : (v.take last).length + (v.drop last).length = s.server.agents.length := by
      rw [← p.length_eq, ← List.length_append, List.take_append_drop]
    obtain ⟨s2, e2, d2⟩ := deleteAgents_fold fuel ih2 (v.drop last)
      { s with server := { s.server with agents := v.take last } }
      (by
        intro hne
        have : 0 < (v.drop last).length := List.length_pos.mpr hne
        show (v.take last).length < fuel
        omega)
      (by
        intro a ha b hb
        rw [hi2 a ha]
        exact lo2 b hb)
    refine ⟨v, last, s2, e, p, lo2, hi2, pk, pg, ?_, d2, ?_⟩
    · rw [destroyAllAgents_succ, e]
      exact e2
    · obtain ⟨f, n, sp, evs, l, q, t⟩ := d2
      have hsub : (v.take last).Subperm s.server.agents :=
        (List.take_sublist _ _).subperm.trans p.subperm
      refine ⟨?_, n, sp.trans hsub, evs, l, ?_, ?_⟩
      · rw [f]
      · rw [List.nil_append]
        refine q.trans ?_
        show (v.drop last ++ v.take last).Perm s.server.agents
        exact List.perm_append_comm.trans (by rw [List.take_append_drop]; exact p)
      · intro e he
        obtain ⟨x, tbl, e1, e2, e3⟩ := t e he
        exact ⟨x, tbl, e1, fun y hy => hsub.subset (e2 hy), e3⟩

/-- A call of `destroyAllAgents` on a table without agents of the class changes nothing. -/
theorem destroyAllAgents_absent (fuel : Nat) (id : String) (st : Sys)
    (h : ∀ b ∈ st.server.agents, b.classId ≠ id) :
    destroyAllAgents (fuel + 1) id st = some st := by
  have e := std_partition_partitioned (fun a => equal_to_id a id) st.server.agents []
    (fun x hx => (equal_to_id_true x id).mpr (h x hx)) (by intro x hx; cases hx)
  rw [List.append_nil] at e
  rw [destroyAllAgents_succ, e]
  simp only [List.drop_length, List.take_length, List.foldlM_nil]
  rfl

/-- Destructor calls that all name the class just removed change nothing. -/
theorem dtorCalls_absent (fuel : Nat) (id : String) :
    ∀ (calls : List String) (st : Sys), (∀ c ∈ calls, c = id) →
      (∀ b ∈ st.server.agents, b.classId ≠ id) →
      calls.foldlM (fun (st2 : Sys) (c : String) => destroyAllAgents (fuel + 1) c st2) st = some st := by
  intro calls
  induction calls with
  | nil => intro st _ _; rfl
  | cons c cs ih =>
    intro st hc hst
    have hc1 : c = id := hc c (List.mem_cons_self _ _)
    subst hc1
    simp only [List.foldlM_cons, destroyAllAgents_absent fuel c st hst, Option.bind_eq_bind,
      Option.some_bind]
    exact ih st (fun x hx => hc x (List.mem_cons_of_mem _ hx)) hst

/-- The deletions of agents whose destructors re-enter `destroyAllAgents` with the
class just removed at most: the table stays, the log gains one event per agent. -/
theorem deleteAgents_selfContained (fuel : Nat) (id : String) :
    ∀ (del : List Agent) (st : Sys), (∀ a ∈ del, ∀ c ∈ a.dtorCalls, c = id) →
      (∀ b ∈ st.server.agents, b.classId ≠ id) →
      del.foldlM (deleteAgent (fuel + 1)) st =
        some { st with log := st.log ++ del.map (fun a => Event.deleteAgent a st.server.agents) } := by
  intro del
  induction del with
  | nil => intro st _ _; simp
  | cons a del ih =>
    intro st hd hst
    have e1 : deleteAgent (fuel + 1) st a =
        some { st with log := st.log ++ [Event.deleteAgent a st.server.agents] } := by
      unfold deleteAgent
      exact dtorCalls_absent fuel id a.dtorCalls _ (hd a (List.mem_cons_self _ _)) hst
    simp only [List.foldlM_cons, e1, Option.bind_eq_bind, Option.some_bind]
    rw [ih { st with log := st.log ++ [Event.deleteAgent a st.server.agents] }
      (fun x hx => hd x (List.mem_cons_of_mem _ hx)) hst]
    simp

/-- The result of `destroyAllAgents` when the destructors of the agents of the class
re-enter `destroyAllAgents` with that class at most. -/
theorem destroyAllAgents_selfContained (fuel : Nat) (id : String) (s : Sys)
    (hfuel : s.server.agents.length < fuel)
    (hself : ∀ a ∈ s.server.agents, a.classId = id → ∀ c ∈ a.dtorCalls, c = id) :
    ∃ v last, std_partition (fun a => equal_to_id a id) s.server.agents = some (v, last) ∧
      (v.take last).Perm (s.server.agents.filter (fun a => equal_to_id a id)) ∧
      (v.drop last).Perm (s.server.agents.filter (fun a => !equal_to_id a id)) ∧
      destroyAllAgents fuel id s =
        some { s with
          server := { s.server with agents := v.take last },
          log := s.log ++ (v.drop last).map (fun a => Event.deleteAgent a (v.take last)) } := by
  obtain ⟨v, last, e, p, lo, hi, pk, pg⟩ :=
    std_partition_spec (fun a => equal_to_id a id) s.server.agents
  have lo2 : ∀ x ∈ v.take last, x.classId ≠ id :=
    fun x hx => (equal_to_id_true x id).mp (lo x hx)
  refine ⟨v, last, e, pk, pg, ?_⟩
  cases fuel with
  | zero => omega
  | succ fuel =>
    rw [destroyAllAgents_succ, e]
    simp only
    by_cases hnil : v.drop last = []
    · rw [hnil]
      simp
    · have hpos : 0 < (v.drop last).length := List.length_pos.mpr hnil
      have hsplit : (v.take last).length + (v.drop last).length = s.server.agents.length := by
        rw [← p.length_eq, ← List.length_append, List.take_append_drop]
      cases fuel with
      | zero => omega
      | succ fuel =>
        rw [deleteAgents_selfContained fuel id (v.drop last) _ ?_ lo2]
        intro a ha c hc
        have ha2 : a ∈ s.server.agents := p.subset (List.mem_of_mem_drop ha)
        exact hself a ha2 ((equal_to_id_false a id).mp (hi a ha)) c hc

theorem filter_equal_to_id (id : String) (l : List Agent) :
    l.filter (fun a => equal_to_id a id) = l.filter (fun a => a.classId ≠ id) := by
  apply List.filter_congr
  intro a _
  by_cases h : a.classId = id <;> simp [equal_to_id, h]

/-- C5: in `destroyAllAgents(id)`, whatever the destructors re-enter, the call returns;
at every destructor call made during it the table holds no agent of class `id`
and not the agent being destroyed, so that a re-entrant `destroyAllAgents(id)`
at that moment changes nothing; every agent of the initial table is either
still in the table or destroyed exactly once; and no agent of class `id` is
left at the end. -/
theorem C5_removal_completes_before_destructors (fuel : Nat) (id : String) (s : Sys)
    (hfuel : s.server.agents.length < fuel) :
    ∃ s2 evs, destroyAllAgents fuel id s = some s2 ∧ s2.log = s.log ++ evs ∧
      (∀ e ∈ evs, ∃ a tbl, e = Event.deleteAgent a tbl ∧ (∀ b ∈ tbl, b.classId ≠ id) ∧ a ∉ tbl ∧
        ∀ (st : Sys) (n : Nat), st.server.agents = tbl →
          destroyAllAgents (n + 1) id st = some st) ∧
      (deletedAgents evs ++ s2.server.agents).Perm s.server.agents ∧
      (s.server.agents.Nodup → (deletedAgents evs).Nodup) ∧
      (∀ b ∈ s2.server.agents, b.classId ≠ id) := by
  obtain ⟨v, last, s2, _, p, lo, _, _, _, e, d, _⟩ := destroyAllAgents_shape fuel id s hfuel
  obtain ⟨_, _, sp, evs, l, q, t⟩ := d
  have hperm : (deletedAgents evs ++ s2.server.agents).Perm s.server.agents := by
    refine q.trans ?_
    show (v.drop last ++ v.take last).Perm s.server.agents
    exact List.perm_append_comm.trans (by rw [List.take_append_drop]; exact p)
  refine ⟨s2, evs, e, l, ?_, hperm, ?_, ?_⟩
  · intro ev hev
    obtain ⟨a, tbl, e1, e2, e3⟩ := t ev hev
    have hno : ∀ b ∈ tbl, b.classId ≠ id := fun b hb => lo b (e2 hb)
    refine ⟨a, tbl, e1, hno, fun ha => e3 a ha rfl, ?_⟩
    intro st n hst
    apply destroyAllAgents_absent
    rw [hst]
    exact hno
  · intro hnd
    have := (hperm.nodup_iff).mpr hnd
    exact (List.nodup_append.mp this).1
  · intro b hb
    exact lo b (sp.subset hb)

/-- C5, witness: two agents of class `"X"` whose destructors re-enter
`destroyAllAgents("X")`, and a bystander. -/
theorem C5_removal_completes_before_destructors_witness :
    (sysOf [reentrantAgent 1 "X", plainAgent 2 "A" 1, reentrantAgent 3 "X"]).server.agents.length < 4 ∧
    ∃ s2 evs,
      destroyAllAgents 4 "X" (sysOf [reentrantAgent 1 "X", plainAgent 2 "A" 1, reentrantAgent 3 "X"])
        = some s2 ∧
      s2.log = (sysOf [reentrantAgent 1 "X", plainAgent 2 "A" 1, reentrantAgent 3 "X"]).log ++ evs ∧
      (∀ e ∈ evs, ∃ a tbl, e = Event.deleteAgent a tbl ∧ (∀ b ∈ tbl, b.classId ≠ "X") ∧ a ∉ tbl ∧
        ∀ (st : Sys) (n : Nat), st.server.agents = tbl →
          destroyAllAgents (n + 1) "X" st = some st) ∧
      (deletedAgents evs ++ s2.server.agents).Perm
        (sysOf [reentrantAgent 1 "X", plainAgent 2 "A" 1, reentrantAgent 3 "X"]).server.agents ∧
      ((sysOf [reentrantAgent 1 "X", plainAgent 2 "A" 1, reentrantAgent 3 "X"]).server.agents.Nodup →
        (deletedAgents evs).Nodup) ∧
      (∀ b ∈ s2.server.agents, b.classId ≠ "X") :=
  ⟨by decide,
    C5_removal_completes_before_destructors 4 "X"
      (sysOf [reentrantAgent 1 "X", plainAgent 2 "A" 1, reentrantAgent 3 "X"]) (by decide)⟩

theorem filter_keep_gone (id : String) (keep gone : List Agent)
    (hk : ∀ a ∈ keep, a.classId ≠ id) (hg : ∀ a ∈ gone, a.classId = id) :
    (keep ++ gone).filter (fun a => a.classId ≠ id) = keep ∧
    (keep ++ gone).filter (fun a => a.classId = id) = gone := by
  constructor
  · rw [List.filter_append, List.filter_eq_self.mpr (by simpa using hk),
      List.filter_eq_nil_iff.mpr (by simpa using hg), List.append_nil]
  · rw [List.filter_append, List.filter_eq_nil_iff.mpr (by simpa using hk),
      List.filter_eq_self.mpr (by simpa using hg), List.nil_append]

/-- C10, refuted as stated: with the table `[X1, A, B, X2]` the call
`destroyAllAgents("X")` leaves the table `[B, A]`: the survivors changed places. -/
theorem C10_survivors_keep_order_counterexample :
    (destroyAllAgents 5 "X"
        (sysOf [plainAgent 1 "X" 1, plainAgent 2 "A" 1, plainAgent 3 "B" 1, plainAgent 4 "X" 1])).map
      (fun s2 => s2.server.agents) = some [plainAgent 3 "B" 1, plainAgent 2 "A" 1] ∧
    (sysOf [plainAgent 1 "X" 1, plainAgent 2 "A" 1, plainAgent 3 "B" 1, plainAgent 4 "X" 1]).server.agents.filter
      (fun a => a.classId ≠ "X") = [plainAgent 2 "A" 1, plainAgent 3 "B" 1] := by
  decide

/-- C10, amended: after `destroyAllAgents(id)` (destructors re-entering at most with the
same id) the table holds exactly the agents whose class id differs from `id`,
each as often as before, in the order in which `std::partition` leaves them;
that is their original relative order whenever no agent of the class stands
before an agent of another class. -/
theorem C10_survivors_are_the_other_agents (fuel : Nat) (id : String) (s : Sys)
    (hfuel : s.server.agents.length < fuel)
    (hself : ∀ a ∈ s.server.agents, a.classId = id → ∀ c ∈ a.dtorCalls, c = id) :
    ∃ s2 v last, destroyAllAgents fuel id s = some s2 ∧
      std_partition (fun a => equal_to_id a id) s.server.agents = some (v, last) ∧
      s2.server.agents = v.take last ∧
      s2.server.agents.Perm (s.server.agents.filter (fun a => a.classId ≠ id)) ∧
      (∀ keep gone, s.server.agents = keep ++ gone → (∀ a ∈ keep, a.classId ≠ id) →
        (∀ a ∈ gone, a.classId = id) →
        s2.server.agents = s.server.agents.filter (fun a => a.classId ≠ id)) := by
  obtain ⟨v, last, e, pk, pg, h⟩ := destroyAllAgents_selfContained fuel id s hfuel hself
  rw [filter_equal_to_id] at pk
  refine ⟨_, v, last, h, e, rfl, pk, ?_⟩
  intro keep gone hs hk hg
  have e2 := std_partition_partitioned (fun a => equal_to_id a id) keep gone
    (fun x hx => (equal_to_id_true x id).mpr (hk x hx))
    (fun x hx => (equal_to_id_false x id).mpr (hg x hx))
  rw [← hs, e] at e2
  cases e2
  show List.take keep.length s.server.agents = _
  rw [hs, (filter_keep_gone id keep gone hk hg).1, List.take_left]

/-- C10, amended, witness: the table `[A, B, X1, X2]`. -/
theorem C10_survivors_are_the_other_agents_witness :
    (sysOf [plainAgent 2 "A" 1, plainAgent 3 "B" 1, plainAgent 1 "X" 1, plainAgent 4 "X" 1]).server.agents.length < 5 ∧
    (∀ a ∈ (sysOf [plainAgent 2 "A" 1, plainAgent 3 "B" 1, plainAgent 1 "X" 1, plainAgent 4 "X" 1]).server.agents,
      a.classId = "X" → ∀ c ∈ a.dtorCalls, c = "X") ∧
    ∃ s2 v last,
      destroyAllAgents 5 "X"
        (sysOf [plainAgent 2 "A" 1, plainAgent 3 "B" 1, plainAgent 1 "X" 1, plainAgent 4 "X" 1])
        = some s2 ∧
      std_partition (fun a => equal_to_id a "X")
        (sysOf [plainAgent 2 "A" 1, plainAgent 3 "B" 1, plainAgent 1 "X" 1, plainAgent 4 "X" 1]).server.agents
          = some (v, last) ∧
      s2.server.agents = v.take last ∧
      s2.server.agents.Perm
        ((sysOf [plainAgent 2 "A" 1, plainAgent 3 "B" 1, plainAgent 1 "X" 1, plainAgent 4 "X" 1]).server.agents.filter
          (fun a => a.classId ≠ "X")) ∧
      (∀ keep gone,
        (sysOf [plainAgent 2 "A" 1, plainAgent 3 "B" 1, plainAgent 1 "X" 1, plainAgent 4 "X" 1]).server.agents
          = keep ++ gone →
        (∀ a ∈ keep, a.classId ≠ "X") → (∀ a ∈ gone, a.classId = "X") →
        s2.server.agents =
          (sysOf [plainAgent 2 "A" 1, plainAgent 3 "B" 1, plainAgent 1 "X" 1, plainAgent 4 "X" 1]).server.agents.filter
            (fun a => a.classId ≠ "X")) :=
  ⟨by decide, by decide,
    C10_survivors_are_the_other_agents 5 "X"
      (sysOf [plainAgent 2 "A" 1, plainAgent 3 "B" 1, plainAgent 1 "X" 1, plainAgent 4 "X" 1])
      (by decide) (by decide)⟩

/-! ## The request queue -/

theorem pushRequest_foldl (rs : List Request) (s : Sys) :
    rs.foldl (fun st r => pushRequest r st) s =
      { s with server := { s.server with requestQueue := s.server.requestQueue ++ rs } } := by
  induction rs generalizing s with
  | nil => simp
  | cons r rs ih =>
    rw [List.foldl_cons, ih]
    simp [pushRequest]

/-- The loop of `processRequests` when no request touches the queue: it returns, the
queue is empty, the log gains `execute r, delete r` for every queued request in
queue order, and every property of the server that the requests and the pops
preserve is preserved. -/
theorem processRequests_spec (env : Env)
    (hq : ∀ r srv, (env.execute r srv).requestQueue = srv.requestQueue)
    (I : CogServer → Prop) (hI : ∀ r srv, I srv → I (env.execute r srv))
    (hIq : ∀ srv q, I srv → I { srv with requestQueue := q }) :
    ∀ (fuel : Nat) (s : Sys), s.server.requestQueue.length < fuel → I s.server →
      ∃ s2, processRequests env fuel s = some s2 ∧
        s2.log = s.log ++
          s.server.requestQueue.flatMap (fun r => [Event.execute r, Event.deleteRequest r]) ∧
        s2.server.requestQueue = [] ∧ I s2.server := by
  intro fuel
  induction fuel with
  | zero => intro s h; omega
  | succ fuel ih =>
    intro s hlen hs
    unfold processRequests popRequest
    cases hqueue : s.server.requestQueue with
    | nil =>
      simp only
      exact ⟨s, rfl, by simp, hqueue, hs⟩
    | cons r rest =>
      simp only
      rw [hqueue] at hlen
      obtain ⟨s2, e, l, q, i⟩ := ih
        (executeRequest env r { s with server := { s.server with requestQueue := rest } })
        (by
          show (env.execute r _).requestQueue.length < fuel
          rw [hq]
          simpa using hlen)
        (hI r _ (hIq _ _ hs))
      refine ⟨s2, e, ?_, q, i⟩
      rw [l]
      show s.log ++ [Event.execute r, Event.deleteRequest r] ++
        List.flatMap (env.execute r _).requestQueue
          (fun r => [Event.execute r, Event.deleteRequest r]) = _
      rw [hq]
      simp

theorem executedRequests_flatMap (rs : List Request) :
    executedRequests (rs.flatMap (fun r => [Event.execute r, Event.deleteRequest r])) = rs := by
  induction rs with
  | nil => rfl
  | cons r rs ih =>
    rw [List.flatMap_cons]
    show r :: executedRequests (rs.flatMap _) = r :: rs
    rw [ih]

theorem deletedRequests_flatMap (rs : List Request) :
    deletedRequests (rs.flatMap (fun r => [Event.execute r, Event.deleteRequest r])) = rs := by
  induction rs with
  | nil => rfl
  | cons r rs ih =>
    rw [List.flatMap_cons]
    show r :: deletedRequests (rs.flatMap _) = r :: rs
    rw [ih]

/-- C2: requests `rs` pushed with `pushRequest` onto an empty queue, none of which touches
the queue while it executes, are executed (and then deleted) by
`processRequests` once each, in push order, and the queue is empty afterwards:
`getRequestQueueSize()` is 0 and `popRequest()` returns the empty sentinel. -/
theorem C2_requests_execute_in_push_order (env : Env) (fuel : Nat) (s : Sys) (rs : List Request)
    (hq : ∀ r srv, (env.execute r srv).requestQueue = srv.requestQueue)
    (hempty : s.server.requestQueue = []) (hfuel : rs.length < fuel) :
    ∃ s2 evs, processRequests env fuel (rs.foldl (fun st r => pushRequest r st) s) = some s2 ∧
      s2.log = s.log ++ evs ∧
      evs = rs.flatMap (fun r => [Event.execute r, Event.deleteRequest r]) ∧
      executedRequests evs = rs ∧ deletedRequests evs = rs ∧
      s2.server.requestQueue = [] ∧ getRequestQueueSize s2 = 0 ∧ (popRequest s2).1 = none := by
  rw [pushRequest_foldl, hempty, List.nil_append]
  obtain ⟨s2, e, l, q, _⟩ := processRequests_spec env hq (fun _ => True) (fun _ _ _ => trivial)
    (fun _ _ _ => trivial) fuel { s with server := { s.server with requestQueue := rs } }
    hfuel trivial
  refine ⟨s2, _, e, l, rfl, executedRequests_flatMap rs, deletedRequests_flatMap rs, q, ?_, ?_⟩
  · simp [getRequestQueueSize, q, wrapSigned]
  · simp [popRequest, q]

/-- C2, witness: the requests `R1..R100` pushed onto the empty queue of a new server. -/
theorem C2_requests_execute_in_push_order_witness :
    (∀ r srv, ((Env.simple 64 100).execute r srv).requestQueue = srv.requestQueue) ∧
    (sysOf []).server.requestQueue = [] ∧
    ((List.range 100).map (fun i => Request.mk (i + 1))).length < 101 ∧
    ∃ s2 evs,
      processRequests (Env.simple 64 100) 101
        (((List.range 100).map (fun i => Request.mk (i + 1))).foldl
          (fun st r => pushRequest r st) (sysOf [])) = some s2 ∧
      s2.log = (sysOf []).log ++ evs ∧
      evs = ((List.range 100).map (fun i => Request.mk (i + 1))).flatMap
        (fun r => [Event.execute r, Event.deleteRequest r]) ∧
      executedRequests evs = (List.range 100).map (fun i => Request.mk (i + 1)) ∧
      deletedRequests evs = (List.range 100).map (fun i => Request.mk (i + 1)) ∧
      s2.server.requestQueue = [] ∧ getRequestQueueSize s2 = 0 ∧ (popRequest s2).1 = none :=
  ⟨fun _ _ => rfl, rfl, by simp,
    C2_requests_execute_in_push_order (Env.simple 64 100) 101 (sysOf [])
      ((List.range 100).map (fun i => Request.mk (i + 1))) (fun _ _ => rfl) rfl (by simp)⟩

/-! ## The agent pass and the cycle counter -/

theorem runsOf_append (xs ys : List Event) : runsOf (xs ++ ys) = runsOf xs ++ runsOf ys := by
  induction xs with
  | nil => rfl
  | cons e es ih => cases e <;> simp [runsOf, ih]

theorem runsOf_requests (rs : List Request) :
    runsOf (rs.flatMap (fun r => [Event.execute r, Event.deleteRequest r])) = [] := by
  induction rs with
  | nil => rfl
  | cons r rs ih =>
    rw [List.flatMap_cons]
    show runsOf (rs.flatMap _) = []
    exact ih

theorem runsOf_map_run (c : Int) (l : List Agent) :
    runsOf (l.map (fun a => Event.run a c)) = l.map (fun a => (a, c)) := by
  induction l with
  | nil => rfl
  | cons a l ih => simp [runsOf, ih]

/-- The loop of `processAgents` over a part `l` of the table, with passive agents of
non-zero frequency and a counter that is not negative: it returns, the agents
that are due run in the order of `l`, and the table, the queue and the counter
are as before. -/
theorem processAgent_fold (env : Env) (hp : env.Passive) (c : Int) (hc0 : 0 ≤ c) :
    ∀ (l : List Agent) (st : Sys), (∀ a ∈ l, a.frequency ≠ 0) → st.server.cycleCount = c →
      ∃ s2, l.foldlM (processAgent env) st = some s2 ∧
        s2.log = st.log ++
          (l.filter (fun a => Int.tmod c a.frequency = 0)).map (fun a => Event.run a c) ∧
        s2.server.cycleCount = c ∧ s2.server.agents = st.server.agents ∧
        s2.server.requestQueue = st.server.requestQueue := by
  intro l
  induction l with
  | nil =>
    intro st _ hc
    exact ⟨st, rfl, by simp, hc, rfl, rfl⟩
  | cons a l ih =>
    intro st hf hc
    have ha : a.frequency ≠ 0 := hf a (List.mem_cons_self _ _)
    have hl : ∀ x ∈ l, x.frequency ≠ 0 := fun x hx => hf x (List.mem_cons_of_mem _ hx)
    have hmin : ¬ (st.server.cycleCount = -(2 ^ (env.longBits - 1)) ∧ a.frequency = -1) := by
      intro h
      have hpos : (0 : Int) < 2 ^ (env.longBits - 1) := by positivity
      have h1 := h.1
      rw [hc] at h1
      omega
    by_cases hdue : Int.tmod c a.frequency = 0
    · have e1 : processAgent env st a =
          some { server := env.run a st.server,
                 log := st.log ++ [Event.run a st.server.cycleCount],
                 now := st.now + env.runMicros a } := by
        unfold processAgent
        rw [if_neg ha, if_neg hmin, if_pos (by rw [hc]; exact hdue)]
        simp [runAgent, hp.run_agents]
      obtain ⟨s2, e2, l2, c2, a2, q2⟩ := ih
        { server := env.run a st.server,
          log := st.log ++ [Event.run a st.server.cycleCount],
          now := st.now + env.runMicros a } hl
        (by show (env.run a st.server).cycleCount = c; rw [hp.run_cycle, hc])
      refine ⟨s2, ?_, ?_, c2, ?_, ?_⟩
      · simp only [List.foldlM_cons, e1, Option.bind_eq_bind, Option.some_bind]
        exact e2
      · rw [l2, hc]
        simp [List.filter_cons, hdue]
      · rw [a2]; exact hp.run_agents a st.server
      · rw [q2]; exact hp.run_queue a st.server
    · have e1 : processAgent env st a = some st := by
        unfold processAgent
        rw [if_neg ha, if_neg hmin, if_neg (by rw [hc]; exact hdue)]
      obtain ⟨s2, e2, l2, c2, a2, q2⟩ := ih st hl hc
      refine ⟨s2, ?_, ?_, c2, a2, q2⟩
      · simp only [List.foldlM_cons, e1, Option.bind_eq_bind, Option.some_bind]
        exact e2
      · rw [l2]
        simp [List.filter_cons, hdue]

/-- The member `processAgents` with passive agents of non-zero frequency and a counter
that is not negative. -/
theorem processAgents_spec (env : Env) (hp : env.Passive) (s : Sys)
    (hf : ∀ a ∈ s.server.agents, a.frequency ≠ 0) (h0 : 0 ≤ s.server.cycleCount) :
    ∃ s2, processAgents env s = some s2 ∧
      s2.log = s.log ++
        (s.server.agents.filter (fun a => Int.tmod s.server.cycleCount a.frequency = 0)).map
          (fun a => Event.run a s.server.cycleCount) ∧
      s2.server.cycleCount = s.server.cycleCount ∧ s2.server.agents = s.server.agents ∧
      s2.server.requestQueue = s.server.requestQueue :=
  processAgent_fold env hp s.server.cycleCount h0 s.server.agents s hf rfl

/-- The member `processRequests` with passive requests: it returns, empties the queue,
runs no agent, and leaves the table and the counter as they were. -/
theorem processRequests_passive (env : Env) (hp : env.Passive) (fuel : Nat) (s : Sys)
    (hfuel : s.server.requestQueue.length < fuel) :
    ∃ s2, processRequests env fuel s = some s2 ∧ runsOf s2.log = runsOf s.log ∧
      s2.server.requestQueue = [] ∧ s2.server.agents = s.server.agents ∧
      s2.server.cycleCount = s.server.cycleCount := by
  obtain ⟨s2, e, l, q, i⟩ := processRequests_spec env hp.execute_queue
    (fun srv => srv.agents = s.server.agents ∧ srv.cycleCount = s.server.cycleCount)
    (fun r srv h => ⟨(hp.execute_agents r srv).trans h.1, (hp.execute_cycle r srv).trans h.2⟩)
    (fun srv q h => h) fuel s hfuel ⟨rfl, rfl⟩
  refine ⟨s2, e, ?_, q, i.1, i.2⟩
  rw [l, runsOf_append, runsOf_requests, List.append_nil]

theorem wrapSigned_of_pos_lt (w : Nat) (x : Int) (h0 : 0 < x) (h1 : x < 2 ^ (w - 1)) :
    wrapSigned w x = x := by
  unfold wrapSigned
  have hw : 1 ≤ w := by
    by_contra h
    have : w = 0 := by omega
    subst this
    simp at h1
    omega
  have h2 : (2 : Int) ^ w = 2 * 2 ^ (w - 1) := by
    obtain ⟨k, rfl⟩ : ∃ k, w = k + 1 := ⟨w - 1, by omega⟩
    simp [pow_succ, mul_comm]
  rw [h2]
  have hpos : (0 : Int) < 2 ^ (w - 1) := by positivity
  rw [Int.emod_eq_of_lt (by omega) (by omega)]
  omega

theorem wrapSigned_overflow (w : Nat) : wrapSigned w (2 ^ (w - 1)) < 0 := by
  unfold wrapSigned
  have hpos : (0 : Int) < 2 ^ (w - 1) := by positivity
  cases w with
  | zero => simp
  | succ k =>
    have h2 : (2 : Int) ^ (k + 1) = 2 ^ (k + 1 - 1) + 2 ^ (k + 1 - 1) := by
      simp [pow_succ]; ring
    rw [← h2, Int.emod_self]
    omega

/-- The statements `cycleCount++; if (cycleCount < 0) cycleCount = 0;` on a counter
`c` with `0 ≤ c < 2^(w-1)`: `c + 1`, or 0 when `c + 1` overflows. -/
theorem incrementCycleCount_spec (env : Env) (s : Sys)
    (h0 : 0 ≤ s.server.cycleCount) (h1 : s.server.cycleCount < 2 ^ (env.longBits - 1)) :
    (incrementCycleCount env s).server.cycleCount =
      (if s.server.cycleCount + 1 < 2 ^ (env.longBits - 1) then s.server.cycleCount + 1 else 0) := by
  unfold incrementCycleCount
  by_cases h : s.server.cycleCount + 1 < 2 ^ (env.longBits - 1)
  · rw [wrapSigned_of_pos_lt _ _ (by omega) h]
    simp only [h, if_true]
    rw [if_neg (by omega)]
  · have he : s.server.cycleCount + 1 = 2 ^ (env.longBits - 1) := by omega
    rw [he]
    simp only [wrapSigned_overflow, if_true]
    simp

theorem incrementCycleCount_nonneg (env : Env) (s : Sys) :
    0 ≤ (incrementCycleCount env s).server.cycleCount := by
  unfold incrementCycleCount
  simp only
  split
  · exact le_refl _
  · omega

/-- The loop of `unitTestServerLoop` from the iteration `i` on, `m` iterations before
the end, with passive agents and requests and no overflow of the counter. -/
theorem unitTestLoop_spec (env : Env) (hp : env.Passive) (fuel0 n : Nat) (A : List Agent)
    (c : Int) (hA : ∀ a ∈ A, 0 < a.frequency) (hc : 0 ≤ c)
    (hover : c + n < 2 ^ (env.longBits - 1)) (hn : 0 < n) :
    ∀ (m fuel i : Nat) (s : Sys), i + m = n → m < fuel → s.server.agents = A →
      s.server.cycleCount = c + i → s.server.requestQueue.length < fuel0 →
      ∃ s2 evs, unitTestLoop env fuel0 n fuel i s = some s2 ∧ s2.log = s.log ++ evs ∧
        runsOf evs = (List.range' i m).flatMap (fun j =>
          (A.filter (fun a => (c + j) % a.frequency = 0)).map (fun a => (a, c + (j : Int)))) ∧
        s2.server.cycleCount = c + n ∧ s2.server.agents = A := by
  intro m
  induction m with
  | zero =>
    intro fuel i s him hfuel hag hcc _
    obtain ⟨fuel, rfl⟩ : ∃ k, fuel = k + 1 := ⟨fuel - 1, by omega⟩
    have hi : i = n := by omega
    subst hi
    refine ⟨s, [], ?_, by simp, by simp [runsOf], hcc, hag⟩
    unfold unitTestLoop
    have h1 : ¬ ((i : Int) = 0 ∨ (i : Int) < (i : Int)) := by omega
    simp only [h1, if_false]
  | succ m ih =>
    intro fuel i s him hfuel hag hcc hq
    obtain ⟨fuel, rfl⟩ : ∃ k, fuel = k + 1 := ⟨fuel - 1, by omega⟩
    have hfreq : ∀ a ∈ s.server.agents, a.frequency ≠ 0 := by
      intro a ha
      have := hA a (hag ▸ ha)
      omega
    obtain ⟨s1, e1, r1, q1, a1, c1⟩ := processRequests_passive env hp fuel0 s hq
    obtain ⟨s2, e2, l2, c2, a2, q2⟩ := processAgents_spec env hp s1 (by rw [a1]; exact hfreq)
      (by rw [c1, hcc]; omega)
    have hcount : (incrementCycleCount env s2).server.cycleCount = c + ((i + 1 : Nat) : Int) := by
      rw [incrementCycleCount_spec env s2 (by rw [c2, c1, hcc]; omega)
        (by rw [c2, c1, hcc]; omega)]
      rw [c2, c1, hcc]
      rw [if_pos (by omega)]
      push_cast
      ring
    obtain ⟨s3, evs, e3, l3, r3, c3, a3⟩ := ih fuel (i + 1) (incrementCycleCount env s2)
      (by omega) (by omega)
      (by show s2.server.agents = A; rw [a2, a1, hag])
      hcount
      (by show s2.server.requestQueue.length < fuel0; rw [q2, q1]; simp; omega)
    have hlog : (incrementCycleCount env s2).log = s2.log := rfl
    obtain ⟨evs1, hevs1⟩ : ∃ evs1, s1.log = s.log ++ evs1 ∧ runsOf evs1 = [] := by
      obtain ⟨s1b, e1b, l1b, _, _⟩ := processRequests_spec env hp.execute_queue (fun _ => True)
        (fun _ _ _ => trivial) (fun _ _ _ => trivial) fuel0 s hq trivial
      rw [e1] at e1b
      cases e1b
      exact ⟨_, l1b, runsOf_requests _⟩
    refine ⟨s3, evs1 ++ ((s1.server.agents.filter
        (fun a => Int.tmod s1.server.cycleCount a.frequency = 0)).map
          (fun a => Event.run a s1.server.cycleCount)) ++ evs, ?_, ?_, ?_, c3, a3⟩
    · unfold unitTestLoop
      have h1 : ((n : Int) = 0 ∨ (i : Int) < (n : Int)) := Or.inr (by omega)
      simp only [h1, if_true, e1, e2]
      have hcast : ((i : Int) + 1) = ((i + 1 : Nat) : Int) := by push_cast; ring
      rw [hcast]
      exact e3
    · rw [l3, hlog, l2, hevs1.1]
      simp [List.append_assoc]
    · rw [runsOf_append, runsOf_append, hevs1.2, r3, runsOf_map_run, List.nil_append,
        List.range'_succ, List.flatMap_cons, a1, hag, c1, hcc]
      congr 2
      apply List.filter_congr
      intro a ha
      have hpos := hA a ha
      rw [Int.tmod_eq_emod (by omega) (by omega)]

theorem countP_filter_eq (a : Agent) (p : Agent → Bool) (A : List Agent) :
    (A.filter p).count a = if p a then A.count a else 0 := by
  induction A with
  | nil => simp
  | cons x A ih =>
    by_cases hx : p x = true
    · rw [List.filter_cons_of_pos hx, List.count_cons, List.count_cons, ih]
      by_cases hxa : x = a
      · subst hxa; simp [hx]
      · have : (x == a) = false := by simpa using hxa
        simp [this]
    · have hx2 : p x = false := by simpa using hx
      rw [List.filter_cons_of_neg hx, List.count_cons, ih]
      by_cases hxa : x = a
      · subst hxa; simp [hx2]
      · have : (x == a) = false := by simpa using hxa
        simp [this]

/-- The number of runs of an agent that stands once in the table, in a schedule. -/
theorem schedule_count (A : List Agent) (c : Int) (a : Agent) (h1 : A.count a = 1) (n : Nat) :
    (((List.range n).flatMap (fun j =>
        (A.filter (fun x => (c + j) % x.frequency = 0)).map (fun x => (x, c + (j : Int))))).filter
          (fun p => p.1 = a)).length =
      ((List.range n).filter (fun (j : Nat) => (c + (j : Int)) % a.frequency = 0)).length := by
  induction n with
  | zero => simp
  | succ n ih =>
    rw [List.range_succ, List.flatMap_append, List.filter_append, List.length_append, ih,
      List.filter_append, List.length_append]
    congr 1
    simp only [List.flatMap_cons, List.flatMap_nil, List.append_nil, List.filter_map]
    rw [List.length_map]
    have hf : (A.filter (fun x => (c + n) % x.frequency = 0)).filter
        ((fun p : Agent × Int => decide (p.1 = a)) ∘ fun x => (x, c + (n : Int))) =
        (A.filter (fun x => (c + n) % x.frequency = 0)).filter (fun x => x == a) := by
      apply List.filter_congr
      intro x _
      by_cases hxa : x = a <;> simp [hxa]
    rw [hf, ← List.countP_eq_length_filter, ← List.count_eq_countP, countP_filter_eq, h1]
    by_cases hd : (c + n) % a.frequency = 0
    · have hd2 : decide ((c + ((n : Nat) : Int)) % a.frequency = 0) = true := decide_eq_true hd
      simp only [List.filter_cons, List.filter_nil, hd2, if_true, List.length_cons,
        List.length_nil]
    · have hd2 : decide ((c + ((n : Nat) : Int)) % a.frequency = 0) = false :=
        decide_eq_false hd
      simp only [List.filter_cons, List.filter_nil, hd2, if_false, List.length_nil]
      rfl

theorem Env.simple_passive (bits : Nat) (millis : Int) : (Env.simple bits millis).Passive :=
  ⟨fun _ _ => rfl, fun _ _ => rfl, fun _ _ => rfl, fun _ _ => rfl, fun _ _ => rfl,
    fun _ _ => rfl⟩

/-- C1: with agents of positive frequency that leave the table alone, a start at the
cycle count `c ≥ 0` and no overflow, `unitTestServerLoop(n)` for `n > 0` returns
with the counter at `c + n`; the agents run, cycle after cycle `c, …, c+n-1` and
in table order within a cycle, exactly when the cycle count is divisible by
their frequency; so an agent that stands once in the table runs as often as
there are multiples of its frequency in `[c, c+n-1]`. -/
theorem C1_agents_run_on_multiples_of_frequency (env : Env) (fuel n : Nat) (s : Sys)
    (hp : env.Passive) (hn : 0 < n)
    (hfreq : ∀ a ∈ s.server.agents, 0 < a.frequency)
    (hc : 0 ≤ s.server.cycleCount)
    (hover : s.server.cycleCount + n < 2 ^ (env.longBits - 1))
    (hfuel : n < fuel) (hqueue : s.server.requestQueue.length < fuel) :
    ∃ s2 evs, unitTestServerLoop env fuel (n : Int) s = some s2 ∧ s2.log = s.log ++ evs ∧
      runsOf evs = (List.range n).flatMap (fun (j : Nat) =>
        (s.server.agents.filter
          (fun a => (s.server.cycleCount + (j : Int)) % a.frequency = 0)).map
            (fun a => (a, s.server.cycleCount + (j : Int)))) ∧
      (∀ a, s.server.agents.count a = 1 →
        ((runsOf evs).filter (fun p => p.1 = a)).length =
          ((List.range n).filter
            (fun (j : Nat) => (s.server.cycleCount + (j : Int)) % a.frequency = 0)).length) ∧
      s2.server.cycleCount = s.server.cycleCount + n := by
  obtain ⟨s2, evs, e, l, r, c2, _⟩ :=
    unitTestLoop_spec env hp fuel n s.server.agents s.server.cycleCount hfreq hc hover hn
      n fuel 0 s (by omega) hfuel rfl (by simp) hqueue
  rw [← List.range_eq_range'] at r
  refine ⟨s2, evs, e, l, r, ?_, c2⟩
  intro a ha
  rw [r]
  exact schedule_count s.server.agents s.server.cycleCount a ha n

/-- C1, witness: 30 cycles from the cycle count 1 with an agent of frequency 3 and an
agent of frequency 5; there are 10 multiples of 3 and 6 multiples of 5 among
the cycle counts 1..30. -/
theorem C1_agents_run_on_multiples_of_frequency_witness :
    ((Env.simple 64 100).Passive ∧ 0 < 30 ∧
      (∀ a ∈ (sysOf [plainAgent 1 "A" 3, plainAgent 2 "B" 5]).server.agents, 0 < a.frequency) ∧
      0 ≤ (sysOf [plainAgent 1 "A" 3, plainAgent 2 "B" 5]).server.cycleCount ∧
      (sysOf [plainAgent 1 "A" 3, plainAgent 2 "B" 5]).server.cycleCount + (30 : Nat)
        < 2 ^ ((Env.simple 64 100).longBits - 1) ∧
      30 < 40 ∧
      (sysOf [plainAgent 1 "A" 3, plainAgent 2 "B" 5]).server.requestQueue.length < 40) ∧
    (∃ s2 evs,
      unitTestServerLoop (Env.simple 64 100) 40 ((30 : Nat) : Int)
        (sysOf [plainAgent 1 "A" 3, plainAgent 2 "B" 5]) = some s2 ∧
      s2.log = (sysOf [plainAgent 1 "A" 3, plainAgent 2 "B" 5]).log ++ evs ∧
      runsOf evs = (List.range 30).flatMap (fun (j : Nat) =>
        ((sysOf [plainAgent 1 "A" 3, plainAgent 2 "B" 5]).server.agents.filter
          (fun a => ((sysOf [plainAgent 1 "A" 3, plainAgent 2 "B" 5]).server.cycleCount + (j : Int))
            % a.frequency = 0)).map
            (fun a => (a, (sysOf [plainAgent 1 "A" 3, plainAgent 2 "B" 5]).server.cycleCount
              + (j : Int)))) ∧
      (∀ a, (sysOf [plainAgent 1 "A" 3, plainAgent 2 "B" 5]).server.agents.count a = 1 →
        ((runsOf evs).filter (fun p => p.1 = a)).length =
          ((List.range 30).filter
            (fun (j : Nat) =>
              ((sysOf [plainAgent 1 "A" 3, plainAgent 2 "B" 5]).server.cycleCount + (j : Int))
                % a.frequency = 0)).length) ∧
      s2.server.cycleCount =
        (sysOf [plainAgent 1 "A" 3, plainAgent 2 "B" 5]).server.cycleCount + (30 : Nat)) ∧
    ((List.range 30).filter (fun (j : Nat) => ((1 : Int) + (j : Int)) % 3 = 0)).length = 10 ∧
    ((List.range 30).filter (fun (j : Nat) => ((1 : Int) + (j : Int)) % 5 = 0)).length = 6 :=
  ⟨⟨Env.simple_passive 64 100, by decide, by decide, by decide, by decide, by decide, by decide⟩,
    C1_agents_run_on_multiples_of_frequency (Env.simple 64 100) 40 30
      (sysOf [plainAgent 1 "A" 3, plainAgent 2 "B" 5]) (Env.simple_passive 64 100) (by decide)
      (by decide) (by decide) (by decide) (by decide) (by decide),
    by decide, by decide⟩

theorem unitTestLoop_succ (env : Env) (fuel0 fuel : Nat) (nCycles i : Int) (s : Sys) :
    unitTestLoop env fuel0 nCycles (fuel + 1) i s =
      if nCycles = 0 ∨ i < nCycles then
        match processRequests env fuel0 s with
        | none => none
        | some s1 =>
          match processAgents env s1 with
          | none => none
          | some s2 => unitTestLoop env fuel0 nCycles fuel (i + 1) (incrementCycleCount env s2)
      else some s := rfl

theorem paceCycle_server (env : Env) (t : Timeval) (s : Sys) :
    (paceCycle env t s).2.server = s.server := by
  unfold paceCycle
  simp only
  split <;> rfl

theorem serverCycle_eq (env : Env) (fuel0 : Nat) (t : Timeval) (s s2 s3 : Sys)
    (h2 : processPending env fuel0 s = some s2)
    (h3 : processAgents env s2 = some s3) :
    serverCycle env fuel0 t s = some (paceCycle env t (incrementCycleCount env s3)) := by
  unfold serverCycle
  rw [h2, Option.some_bind, h3, Option.some_bind]

/-- C3: the cycle counter starts at 1; from a counter `c` with `0 ≤ c < 2^(w-1)` one cycle
of `unitTestServerLoop` and one cycle of `serverLoop` return with the counter at
`c + 1`, or at 0 when `c + 1` overflows the `w`-bit signed type; the counter is
not negative after any increment. -/
theorem C3_cycle_counter_wraps_to_zero (env : Env) (fuel : Nat) (s : Sys) (t : Timeval)
    (hp : env.Passive) (hfreq : ∀ a ∈ s.server.agents, a.frequency ≠ 0)
    (h0 : 0 ≤ s.server.cycleCount) (h1 : s.server.cycleCount < 2 ^ (env.longBits - 1))
    (hfuel : 1 < fuel) (hqueue : s.server.requestQueue.length < fuel) :
    (∀ r, (CogServer.new r).cycleCount = 1) ∧
    (∃ s2, unitTestServerLoop env fuel 1 s = some s2 ∧
      s2.server.cycleCount =
        (if s.server.cycleCount + 1 < 2 ^ (env.longBits - 1) then s.server.cycleCount + 1 else 0) ∧
      0 ≤ s2.server.cycleCount) ∧
    (∃ t2 s2, serverCycle env fuel t s = some (t2, s2) ∧
      s2.server.cycleCount =
        (if s.server.cycleCount + 1 < 2 ^ (env.longBits - 1) then s.server.cycleCount + 1 else 0) ∧
      0 ≤ s2.server.cycleCount) ∧
    (∀ st : Sys, 0 ≤ (incrementCycleCount env st).server.cycleCount) := by
  obtain ⟨s1, e1, _, q1, a1, c1⟩ := processRequests_passive env hp fuel s hqueue
  obtain ⟨s2, e2, _, c2, _, _⟩ := processAgents_spec env hp s1 (by rw [a1]; exact hfreq)
    (by rw [c1]; exact h0)
  obtain ⟨s3, e3, _, c3, _, _⟩ := processAgents_spec env hp s hfreq h0
  have k2 := incrementCycleCount_spec env s2 (by rw [c2, c1]; exact h0) (by rw [c2, c1]; exact h1)
  rw [c2, c1] at k2
  have k3 := incrementCycleCount_spec env s3 (by rw [c3]; exact h0) (by rw [c3]; exact h1)
  rw [c3] at k3
  refine ⟨fun _ => rfl, ⟨incrementCycleCount env s2, ?_, k2, incrementCycleCount_nonneg env s2⟩,
    ?_, incrementCycleCount_nonneg env⟩
  · obtain ⟨f, rfl⟩ : ∃ k, fuel = k + 2 := ⟨fuel - 2, by omega⟩
    show unitTestLoop env (f + 2) 1 (f + 1 + 1) 0 s = _
    rw [unitTestLoop_succ, if_pos (Or.inr (by decide))]
    simp only [e1, e2]
    show unitTestLoop env (f + 2) 1 (f + 1) (0 + 1) _ = _
    rw [unitTestLoop_succ, if_neg (by decide)]
  · by_cases hsize : getRequestQueueSize s ≠ 0
    · refine ⟨(paceCycle env t (incrementCycleCount env s2)).1,
        (paceCycle env t (incrementCycleCount env s2)).2,
        serverCycle_eq env fuel t s s1 s2
          (by unfold processPending; rw [if_pos hsize]; exact e1) e2, ?_, ?_⟩
      · rw [paceCycle_server]; exact k2
      · rw [paceCycle_server]; exact incrementCycleCount_nonneg env s2
    · refine ⟨(paceCycle env t (incrementCycleCount env s3)).1,
        (paceCycle env t (incrementCycleCount env s3)).2,
        serverCycle_eq env fuel t s s s3 (by unfold processPending; rw [if_neg hsize]) e3,
        ?_, ?_⟩
      · rw [paceCycle_server]; exact k3
      · rw [paceCycle_server]; exact incrementCycleCount_nonneg env s3

/-- C3, witness: a 64-bit counter at its largest value `2^63 - 1`. -/
theorem C3_cycle_counter_wraps_to_zero_witness :
    ((Env.simple 64 100).Passive ∧
      (∀ a ∈ ({ server := { CogServer.new false with
                  cycleCount := 2 ^ 63 - 1, agents := [plainAgent 1 "A" 3] },
                log := [], now := 0 } : Sys).server.agents, a.frequency ≠ 0) ∧
      (0 : Int) ≤ 2 ^ 63 - 1 ∧ (2 ^ 63 - 1 : Int) < 2 ^ ((Env.simple 64 100).longBits - 1) ∧
      1 < 2 ∧ (0 : Nat) < 2) ∧
    ((∀ r, (CogServer.new r).cycleCount = 1) ∧
    (∃ s2, unitTestServerLoop (Env.simple 64 100) 2 1
        { server := { CogServer.new false with
            cycleCount := 2 ^ 63 - 1, agents := [plainAgent 1 "A" 3] },
          log := [], now := 0 } = some s2 ∧
      s2.server.cycleCount =
        (if (2 ^ 63 - 1 : Int) + 1 < 2 ^ ((Env.simple 64 100).longBits - 1)
          then (2 ^ 63 - 1 : Int) + 1 else 0) ∧
      0 ≤ s2.server.cycleCount) ∧
    (∃ t2 s2, serverCycle (Env.simple 64 100) 2 { tv_sec := 0, tv_usec := 0 }
        { server := { CogServer.new false with
            cycleCount := 2 ^ 63 - 1, agents := [plainAgent 1 "A" 3] },
          log := [], now := 0 } = some (t2, s2) ∧
      s2.server.cycleCount =
        (if (2 ^ 63 - 1 : Int) + 1 < 2 ^ ((Env.simple 64 100).longBits - 1)
          then (2 ^ 63 - 1 : Int) + 1 else 0) ∧
      0 ≤ s2.server.cycleCount) ∧
    (∀ st : Sys, 0 ≤ (incrementCycleCount (Env.simple 64 100) st).server.cycleCount)) ∧
    (if (2 ^ 63 - 1 : Int) + 1 < 2 ^ ((Env.simple 64 100).longBits - 1)
      then (2 ^ 63 - 1 : Int) + 1 else 0) = 0 :=
  ⟨⟨Env.simple_passive 64 100, by decide, by decide, by decide, by decide, by decide⟩,
    C3_cycle_counter_wraps_to_zero (Env.simple 64 100) 2
      { server := { CogServer.new false with
          cycleCount := 2 ^ 63 - 1, agents := [plainAgent 1 "A" 3] },
        log := [], now := 0 }
      { tv_sec := 0, tv_usec := 0 } (Env.simple_passive 64 100) (by decide) (by decide)
      (by decide) (by decide) (by decide),
    by decide⟩

/-! ## Modules -/

/-- The result of `loadModule` on a file that is already a key of the module map. -/
theorem loadModule_loaded (env : Env) (filename : String) (s : Sys)
    (h : (s.server.modules filename).isSome = true) :
    loadModule env filename s = (false, s) := by
  unfold loadModule
  rw [if_pos h]

/-- The result of `loadModule` when every step succeeds. -/
theorem loadModule_success (env : Env) (filename : String) (s : Sys) (lib : DynLibrary)
    (id : String) (lf uf : Nat)
    (h0 : (s.server.modules filename).isSome = false)
    (h1 : env.dlopen filename = some lib) (h2 : lib.idFunction = some (some id))
    (h3 : lib.loadFunction = some lf) (h4 : lib.unloadFunction = some uf) :
    loadModule env filename s =
      (true,
        { server := env.init lib.module
            { s.server with
              modules :=
                (s.server.modules.insert id
                  { module := lib.module, id := id, filename := filename, loadFunction := lf,
                    unloadFunction := uf, handle := lib.handle }).insert filename
                  { module := lib.module, id := id, filename := filename, loadFunction := lf,
                    unloadFunction := uf, handle := lib.handle } },
          log := s.log ++ [Event.dlopen filename] ++ [Event.idFunction filename] ++
            [Event.loadFunction filename, Event.init lib.module],
          now := s.now }) := by
  unfold loadModule
  rw [if_neg (by simp [h0])]
  simp only [h1, h2, h3, h4]

/-- The outcomes of `loadModule`: a failure that leaves the system as it was but for at most
two log entries, or the success described by `loadModule_success`. -/
theorem loadModule_outcome (env : Env) (filename : String) (s : Sys) :
    ((loadModule env filename s).1 = false ∧
      (loadModule env filename s).2.server = s.server ∧
      (loadModule env filename s).2.now = s.now ∧
      ∃ evs, (loadModule env filename s).2.log = s.log ++ evs ∧
        ∀ e ∈ evs, e = Event.dlopen filename ∨ e = Event.idFunction filename) ∨
    (∃ lib id lf uf, (s.server.modules filename).isSome = false ∧
      env.dlopen filename = some lib ∧ lib.idFunction = some (some id) ∧
      lib.loadFunction = some lf ∧ lib.unloadFunction = some uf) := by
  cases h0 : (s.server.modules filename).isSome with
  | true =>
    left
    rw [loadModule_loaded env filename s h0]
    exact ⟨rfl, rfl, rfl, [], by simp, by simp⟩
  | false =>
    have hn : ¬ (s.server.modules filename).isSome = true := by simp [h0]
    cases h1 : env.dlopen filename with
    | none =>
      left
      have e : loadModule env filename s =
          (false, { s with log := s.log ++ [Event.dlopen filename] }) := by
        unfold loadModule
        rw [if_neg hn]
        simp only [h1, List.append_assoc, List.singleton_append]
      rw [e]
      exact ⟨rfl, rfl, rfl, [Event.dlopen filename], rfl, by simp⟩
    | some lib =>
      cases h2 : lib.idFunction with
      | none =>
        left
        have e : loadModule env filename s =
            (false, { s with log := s.log ++ [Event.dlopen filename] }) := by
          unfold loadModule
          rw [if_neg hn]
          simp only [h1, h2, List.append_assoc, List.singleton_append]
        rw [e]
        exact ⟨rfl, rfl, rfl, [Event.dlopen filename], rfl, by simp⟩
      | some idResult =>
        cases idResult with
        | none =>
          left
          have e : loadModule env filename s =
              (false, { s with log := s.log ++ [Event.dlopen filename, Event.idFunction filename] }) := by
            unfold loadModule
            rw [if_neg hn]
            simp only [h1, h2, List.append_assoc, List.singleton_append]
          rw [e]
          exact ⟨rfl, rfl, rfl, [Event.dlopen filename, Event.idFunction filename], rfl, by simp⟩
        | some id =>
          cases h3 : lib.loadFunction with
          | none =>
            left
            have e : loadModule env filename s =
                (false, { s with log := s.log ++ [Event.dlopen filename, Event.idFunction filename] }) := by
              unfold loadModule
              rw [if_neg hn]
              simp only [h1, h2, h3, List.append_assoc, List.singleton_append]
            rw [e]
            exact ⟨rfl, rfl, rfl, [Event.dlopen filename, Event.idFunction filename], rfl, by simp⟩
          | some lf =>
            cases h4 : lib.unloadFunction with
            | none =>
              left
              have e : loadModule env filename s =
                  (false, { s with log := s.log ++ [Event.dlopen filename, Event.idFunction filename] }) := by
                unfold loadModule
                rw [if_neg hn]
                simp only [h1, h2, h3, h4, List.append_assoc, List.singleton_append]
              rw [e]
              exact ⟨rfl, rfl, rfl, [Event.dlopen filename, Event.idFunction filename], rfl, by simp⟩
            | some uf =>
              right
              exact ⟨lib, id, lf, uf, rfl, rfl, h2, h3, h4⟩

/-- C8: whenever `loadModule` returns false the server (module map, agent table, request
queue, cycle counter and the rest) and the clock are as before the call, and
the only events of the call are the `dlopen` and the id query: no load
function, `init` or unload function was called; on a path that is already a
key of the module map the call returns false at once, without `dlopen`. -/
theorem C8_failed_load_leaves_server_unchanged (env : Env) (filename : String) (s : Sys) :
    ((loadModule env filename s).1 = false →
      (loadModule env filename s).2.server = s.server ∧
      (loadModule env filename s).2.now = s.now ∧
      ∃ evs, (loadModule env filename s).2.log = s.log ++ evs ∧
        ∀ e ∈ evs, e = Event.dlopen filename ∨ e = Event.idFunction filename) ∧
    ((s.server.modules filename).isSome = true → loadModule env filename s = (false, s)) := by
  refine ⟨?_, loadModule_loaded env filename s⟩
  intro h
  rcases loadModule_outcome env filename s with ⟨_, h2⟩ | ⟨lib, id, lf, uf, h0, h1, h2, h3, h4⟩
  · exact h2
  · rw [loadModule_success env filename s lib id lf uf h0 h1 h2 h3 h4] at h
    cases h

/-- C8, witness: a library without the unload symbol, and a second load of a path that is
a key of the module map. -/
theorem C8_failed_load_leaves_server_unchanged_witness :
    ((loadModule (Env.fixedId "opencog::M" false) "a.so" (sysOf [])).1 = false ∧
      ((loadModule (Env.fixedId "opencog::M" false) "a.so" (sysOf [])).2.server
          = (sysOf []).server ∧
        (loadModule (Env.fixedId "opencog::M" false) "a.so" (sysOf [])).2.now = (sysOf []).now ∧
        ∃ evs, (loadModule (Env.fixedId "opencog::M" false) "a.so" (sysOf [])).2.log
            = (sysOf []).log ++ evs ∧
          ∀ e ∈ evs, e = Event.dlopen "a.so" ∨ e = Event.idFunction "a.so")) ∧
    (((loadModule (Env.fixedId "opencog::M" true) "a.so" (sysOf [])).2.server.modules
        "a.so").isSome = true ∧
      loadModule (Env.fixedId "opencog::M" true) "a.so"
          (loadModule (Env.fixedId "opencog::M" true) "a.so" (sysOf [])).2
        = (false, (loadModule (Env.fixedId "opencog::M" true) "a.so" (sysOf [])).2)) :=
  ⟨⟨by decide,
      (C8_failed_load_leaves_server_unchanged (Env.fixedId "opencog::M" false) "a.so"
        (sysOf [])).1 (by decide)⟩,
    ⟨by decide,
      (C8_failed_load_leaves_server_unchanged (Env.fixedId "opencog::M" true) "a.so"
        (loadModule (Env.fixedId "opencog::M" true) "a.so" (sysOf [])).2).2 (by decide)⟩⟩

theorem ModuleMap.insert_insert_erase_erase (m : ModuleMap) (id filename : String)
    (d : ModuleData) (hid : m id = none) (hf : m filename = none) :
    (((m.insert id d).insert filename d).erase filename).erase id = m := by
  funext k
  unfold ModuleMap.insert ModuleMap.erase
  by_cases h1 : k = id
  · simp [h1, hid]
  · by_cases h2 : k = filename
    · simp [h1, h2, hf]
    · simp [h1, h2]

/-- The result of `unloadModule` on a key of the module map. -/
theorem unloadModule_found (env : Env) (key : String) (s : Sys) (d : ModuleData)
    (h : s.server.modules key = some d) :
    (unloadModule env key s).2.server.modules =
      ((env.unload d.unloadFunction d.module s.server).modules.erase d.filename).erase d.id ∧
    (env.dlclose d.handle = 0 → (unloadModule env key s).1 = true) := by
  unfold unloadModule
  simp only [h]
  constructor
  · split <;> rfl
  · intro h0
    rw [if_neg (by simp [h0])]

/-- C7, refuted as stated: the module map holds the module `opencog::P` loaded from the file
`plugin`, under both keys; the library `b.so` reports the module id `plugin`,
the filename of the other module. `loadModule("b.so")` and
`unloadModule("b.so")` both succeed, and the entry under `plugin` is gone. -/
theorem C7_load_unload_restores_map_counterexample :
    (loadModule (Env.fixedId "plugin" true) "b.so"
        (sysWithModule { module := 7, id := "opencog::P", filename := "plugin",
                         loadFunction := 1, unloadFunction := 2, handle := 7 })).1 = true ∧
    (unloadModule (Env.fixedId "plugin" true) "b.so"
        (loadModule (Env.fixedId "plugin" true) "b.so"
          (sysWithModule { module := 7, id := "opencog::P", filename := "plugin",
                           loadFunction := 1, unloadFunction := 2, handle := 7 })).2).1 = true ∧
    (unloadModule (Env.fixedId "plugin" true) "b.so"
        (loadModule (Env.fixedId "plugin" true) "b.so"
          (sysWithModule { module := 7, id := "opencog::P", filename := "plugin",
                           loadFunction := 1, unloadFunction := 2, handle := 7
                           })).2).2.server.modules "plugin" = none ∧
    (sysWithModule { module := 7, id := "opencog::P", filename := "plugin",
                     loadFunction := 1, unloadFunction := 2, handle := 7 }).server.modules
      "plugin" =
        some { module := 7, id := "opencog::P", filename := "plugin", loadFunction := 1,
               unloadFunction := 2, handle := 7 } ∧
    (unloadModule (Env.fixedId "plugin" true) "b.so"
        (loadModule (Env.fixedId "plugin" true) "b.so"
          (sysWithModule { module := 7, id := "opencog::P", filename := "plugin",
                           loadFunction := 1, unloadFunction := 2, handle := 7
                           })).2).2.server.modules
      ≠ (sysWithModule { module := 7, id := "opencog::P", filename := "plugin",
                         loadFunction := 1, unloadFunction := 2, handle := 7
                         }).server.modules := by
  refine ⟨by decide, by decide, by decide, by decide, ?_⟩
  intro h
  have := congrFun h "plugin"
  revert this
  decide

/-- The call of `unloadModule` on a system whose module map is `m` with the descriptor `d`
inserted under the module id and the filename. -/
theorem unload_after_load (env : Env) (filename key id : String) (m : ModuleMap)
    (d : ModuleData) (s1 : Sys) (hm : env.ModulesUntouched)
    (hmods : s1.server.modules = (m.insert id d).insert filename d)
    (hid : d.id = id) (hfile : d.filename = filename)
    (hfresh : m id = none) (hnone : m filename = none) (hkey : key = filename ∨ key = id) :
    (∃ mdata : ModuleData, mdata.id = id ∧ mdata.filename = filename ∧
      s1.server.modules = (m.insert id mdata).insert filename mdata ∧
      (env.dlclose mdata.handle = 0 → (unloadModule env key s1).1 = true)) ∧
    (unloadModule env key s1).2.server.modules = m := by
  have hfound : s1.server.modules key = some d := by
    rw [hmods]
    unfold ModuleMap.insert
    rcases hkey with hk | hk
    · simp [hk]
    · simp [hk]
  obtain ⟨u1, u2⟩ := unloadModule_found env key s1 d hfound
  refine ⟨⟨d, hid, hfile, hmods, u2⟩, ?_⟩
  rw [u1, hm.unload_modules, hmods, hid, hfile]
  exact ModuleMap.insert_insert_erase_erase _ _ _ _ hfresh hnone

/-- C7, amended: a successful `loadModule(path)` inserts one descriptor under the module id
and under the filename; when the entry points of the module leave the module
map alone and the module id reported by the library was not yet a key of the
map, `unloadModule(key)` with the path or the module id as key finds the
module (it returns true unless `dlclose` fails) and leaves the module map
identical to the map before the load. -/
theorem C7_load_unload_restores_map_for_new_id (env : Env) (filename key id : String)
    (s : Sys) (hm : env.ModulesUntouched)
    (hload : (loadModule env filename s).1 = true)
    (hid : (env.dlopen filename).bind (fun lib => lib.idFunction) = some (some id))
    (hfresh : s.server.modules id = none)
    (hkey : key = filename ∨ key = id) :
    (∃ mdata : ModuleData, mdata.id = id ∧ mdata.filename = filename ∧
      (loadModule env filename s).2.server.modules =
        (s.server.modules.insert id mdata).insert filename mdata ∧
      (env.dlclose mdata.handle = 0 →
        (unloadModule env key (loadModule env filename s).2).1 = true)) ∧
    (unloadModule env key (loadModule env filename s).2).2.server.modules
      = s.server.modules := by
  rcases loadModule_outcome env filename s with ⟨h, _⟩ | ⟨lib, id2, lf, uf, h0, h1, h2, h3, h4⟩
  · rw [h] at hload; cases hload
  · rw [h1, Option.some_bind, h2] at hid
    have hid2 : id2 = id := by
      injection hid with hid
      injection hid
    subst hid2
    have hnone : s.server.modules filename = none := by
      cases h : s.server.modules filename with
      | none => rfl
      | some d => rw [h] at h0; cases h0
    rw [loadModule_success env filename s lib id2 lf uf h0 h1 h2 h3 h4]
    exact unload_after_load env filename key id2 s.server.modules _ _ hm
      (hm.init_modules _ _) rfl rfl hfresh hnone hkey

theorem Env.simple_modulesUntouched (bits : Nat) (millis : Int) :
    (Env.simple bits millis).ModulesUntouched :=
  ⟨fun _ _ => rfl, fun _ _ _ => rfl⟩

/-- C7, amended, witness: the library `a.so` loaded into a new server and unloaded by its
module id `opencog::a.so`. -/
theorem C7_load_unload_restores_map_for_new_id_witness :
    ((Env.simple 64 100).ModulesUntouched ∧
      (loadModule (Env.simple 64 100) "a.so" (sysOf [])).1 = true ∧
      ((Env.simple 64 100).dlopen "a.so").bind (fun lib => lib.idFunction)
        = some (some "opencog::a.so") ∧
      (sysOf []).server.modules "opencog::a.so" = none ∧
      ("opencog::a.so" = "a.so" ∨ "opencog::a.so" = "opencog::a.so")) ∧
    ((∃ mdata : ModuleData, mdata.id = "opencog::a.so" ∧ mdata.filename = "a.so" ∧
      (loadModule (Env.simple 64 100) "a.so" (sysOf [])).2.server.modules =
        ((sysOf []).server.modules.insert "opencog::a.so" mdata).insert "a.so" mdata ∧
      ((Env.simple 64 100).dlclose mdata.handle = 0 →
        (unloadModule (Env.simple 64 100) "opencog::a.so"
          (loadModule (Env.simple 64 100) "a.so" (sysOf [])).2).1 = true)) ∧
    (unloadModule (Env.simple 64 100) "opencog::a.so"
        (loadModule (Env.simple 64 100) "a.so" (sysOf [])).2).2.server.modules
      = (sysOf []).server.modules) :=
  ⟨⟨Env.simple_modulesUntouched 64 100, by decide, by decide, by decide, by decide⟩,
    C7_load_unload_restores_map_for_new_id (Env.simple 64 100) "a.so" "opencog::a.so"
      "opencog::a.so" (sysOf []) (Env.simple_modulesUntouched 64 100) (by decide) (by decide)
      (by decide) (by decide)⟩

/-! ## Tick pacing -/

/-- C9, the code at the failing input: `SERVER_CYCLE_DURATION = 100`, one agent of frequency 1
whose `run` takes 10 ms, `usleep` exact, `stop()` after 1 s. The work of every
cycle is shorter than the cycle duration of 100000 microseconds, yet every
second cycle starts only 10000 microseconds after the one before it, because
`timer_start` is set to the time taken before the sleep; the loop performs 19
cycles in the second, not between 9 and 11. -/
theorem C9_serverLoop_pacing_at_failing_input :
    (serverLoop (Env.simple 64 100) 40 (sysOf [plainAgent 1 "A" 1])).map
        (fun s => cycleStarts s.log) =
      some [0, 100000, 110000, 210000, 220000, 320000, 330000, 430000, 440000, 540000, 550000,
        650000, 660000, 760000, 770000, 870000, 880000, 980000, 990000] ∧
    (serverLoop (Env.simple 64 100) 40 (sysOf [plainAgent 1 "A" 1])).map
        (fun s => (cycleStarts s.log).length) = some 19 ∧
    (serverLoop (Env.simple 64 100) 40 (sysOf [plainAgent 1 "A" 1])).map
        (fun s => s.server.cycleCount) = some 20 ∧
    cycle_duration (Env.simple 64 100) = 100000 ∧
    (Env.simple 64 100).runMicros (plainAgent 1 "A" 1) = 10000 := by
  decide

end opencog
